import Mathlib

/-!
Verification of the topology-extraction pipeline in
`src/map/src/topology/topology_generation/topology_extractor.rs`.

The pipeline turns a binary skeleton mask into a topological graph:
`find_seed_points` picks one seed per 8-connected foreground component,
`find_nodes` classifies pixels by a local connectivity score and creates
graph nodes, and `find_edges` runs a multi-source BFS from all node
frontier origins, emitting one polyline edge per frontier collision.

Modelling conventions:
* A grid pixel is a pair `(x, y)` of naturals; the mask is a boolean
  function together with its dimensions.  `ndarray::Array2::get` with an
  index produced by casting a negative `isize` to `usize` yields a huge
  number (two's complement), which is out of range for any real array,
  so it returns `None`; we model every such lookup with `Int` coordinates
  and an explicit bounds test.
* `f64` node positions are exact casts of small integer pixel coordinates,
  so positions and waypoints are modelled as the pixel pairs themselves.
* Unbounded `while` loops become fuel-indexed recursions that return
  `none` on fuel exhaustion; sufficiency of the canonical fuel is proved,
  not assumed.  Rust `unwrap`/`expect` calls that can in principle panic
  are modelled as `Option` failures.
* `find_seed_points` iterates a `HashSet` in unspecified order; we
  determinize it by keeping the insertion order of the `for x { for y }`
  scan, which is one legal behaviour of the source.
-/

/-- A pixel coordinate `(x, y)` in grid space. -/
abbrev Pos := Nat × Nat

/-- The skeleton mask: dimensions plus a foreground predicate.  Mirrors the
`Array2<bool>` consumed by the extractor (`true` = skeleton foreground). -/
structure Mask where
  w : Nat
  h : Nat
  fg : Nat → Nat → Bool

/-- The checked lookup `thinned_occupancy_map.get((y, x))` with `Int`
coordinates: `none` exactly when the coordinate is outside the grid. -/
def Mask.getI (m : Mask) (x y : Int) : Option Bool :=
  if 0 ≤ x ∧ x < (m.w : Int) ∧ 0 ≤ y ∧ y < (m.h : Int) then
    some (m.fg x.toNat y.toNat)
  else none

/-- The fixed 8-direction rim ordering `GRID_OFFSETS_RIM` of the source:
N, NE, E, SE, S, SW, W, NW as `[dx, dy]` offsets. -/
def GRID_OFFSETS_RIM : List (Int × Int) :=
  [(0, -1), (1, -1), (1, 0), (1, 1), (0, 1), (-1, 1), (-1, 0), (-1, -1)]

/-- Offset at rim index `i` (indices used by the source are `0..7`). -/
def rimOff (i : Nat) : Int × Int := GRID_OFFSETS_RIM.getD i (0, 0)

/-- Source `get_neighboring_pos`: the neighbor of `pos` at rim index `i`
inside dimensions `dim = (width, height)`, or `none` when out of bounds. -/
def get_neighboring_pos (pos : Pos) (dim : Pos) (i : Nat) : Option Pos :=
  let x : Int := (pos.1 : Int) + (rimOff i).1
  let y : Int := (pos.2 : Int) + (rimOff i).2
  if x < 0 ∨ (dim.1 : Int) ≤ x ∨ y < 0 ∨ (dim.2 : Int) ≤ y then none
  else some (x.toNat, y.toNat)

/-- The raw map lookup performed by `compute_pixel_score` at rim index `i`
of pixel `(x, y)`: `thinned_occupancy_map.get(((y + dy) as usize, (x + dx) as usize))`. -/
def score_lookup (m : Mask) (x y : Nat) (i : Nat) : Option Bool :=
  m.getI ((x : Int) + (rimOff i).1) ((y : Int) + (rimOff i).2)

/-- Source `compute_pixel_score` first loop: `adjacent_pixels` counts rim
lookups that return `Some(true)`. -/
def adjacent_pixels (m : Mask) (x y : Nat) : Nat :=
  (List.range 8).countP fun i => decide (score_lookup m x y i = some true)

/-- Source `compute_pixel_score` second loop: a cyclically-adjacent rim pair
is counted unless either lookup returns `Some(false)`; an out-of-bounds
lookup (`None`) does NOT skip the pair. -/
def contiguous_intervals (m : Mask) (x y : Nat) : Nat :=
  (List.range 8).countP fun i =>
    decide (¬ score_lookup m x y i = some false ∧
            ¬ score_lookup m x y ((i + 1) % 8) = some false)

/-- Source `compute_pixel_score`: `adjacent_pixels - contiguous_intervals`
as an `i32` (no overflow is possible: both counts are at most 8). -/
def compute_pixel_score (m : Mask) (x y : Nat) : Int :=
  (adjacent_pixels m x y : Int) - (contiguous_intervals m x y : Int)

/-- Whether the neighbor of `pos` at rim index `i` is an in-bounds
foreground pixel. -/
def nbr_fg (m : Mask) (pos : Pos) (i : Nat) : Bool :=
  match get_neighboring_pos pos (m.w, m.h) i with
  | some p => m.fg p.1 p.2
  | none => false

/-- Modelled from the spec: the connectivity score as the specification
words it — `neighbor_count` in-bounds foreground 8-neighbors minus
`arc_count` cyclically-adjacent pairs that are BOTH in-bounds foreground.
This is the formula claimed for `compute_pixel_score`; it is compared
against the source definition above. -/
def spec_pixel_score (m : Mask) (x y : Nat) : Int :=
  ((List.range 8).countP fun i => nbr_fg m (x, y) i : Int) -
  ((List.range 8).countP fun i => nbr_fg m (x, y) i && nbr_fg m (x, y) ((i + 1) % 8) : Int)

/-- Score of a pixel as a function of its 8 neighbor foreground bits. -/
def score_of_nbrs (b : Nat → Bool) : Int :=
  ((List.range 8).countP fun i => b i : Int) -
  ((List.range 8).countP fun i => b i && b ((i + 1) % 8) : Int)

theorem getI_in (m : Mask) (x y : Int) (hx0 : 0 ≤ x) (hxw : x < (m.w : Int))
    (hy0 : 0 ≤ y) (hyh : y < (m.h : Int)) :
    m.getI x y = some (m.fg x.toNat y.toNat) := by
  unfold Mask.getI
  rw [if_pos ⟨hx0, hxw, hy0, hyh⟩]

theorem getI_out (m : Mask) (x y : Int)
    (h : ¬ (0 ≤ x ∧ x < (m.w : Int) ∧ 0 ≤ y ∧ y < (m.h : Int))) :
    m.getI x y = none := by
  unfold Mask.getI
  rw [if_neg h]

/-- The raw score lookup agrees with `get_neighboring_pos`: it returns the
foreground bit of the neighbor when in bounds and `none` otherwise. -/
theorem score_lookup_eq_nbr (m : Mask) (x y i : Nat) :
    score_lookup m x y i =
      match get_neighboring_pos (x, y) (m.w, m.h) i with
      | some p => some (m.fg p.1 p.2)
      | none => none := by
  unfold score_lookup get_neighboring_pos Mask.getI
  by_cases hb : 0 ≤ (x : Int) + (rimOff i).1 ∧ (x : Int) + (rimOff i).1 < (m.w : Int) ∧
      0 ≤ (y : Int) + (rimOff i).2 ∧ (y : Int) + (rimOff i).2 < (m.h : Int)
  · rw [if_pos hb, if_neg (by push_neg; exact ⟨hb.1, hb.2.1, hb.2.2.1, hb.2.2.2⟩)]
  · rw [if_neg hb, if_pos (by by_contra hc; push_neg at hc; exact hb ⟨hc.1, hc.2.1, hc.2.2.1, hc.2.2.2⟩)]

/-- When every rim lookup of `(x, y)` is in bounds with foreground bit `b i`,
the source score is determined by the neighbor-bit vector. -/
theorem score_eq_of_nbrs (m : Mask) (x y : Nat) (b : Nat → Bool)
    (h : ∀ i < 8, score_lookup m x y i = some (b i)) :
    compute_pixel_score m x y = score_of_nbrs b := by
  unfold compute_pixel_score score_of_nbrs adjacent_pixels contiguous_intervals
  have h1 : ((List.range 8).countP fun i => decide (score_lookup m x y i = some true)) =
      (List.range 8).countP fun i => b i := by
    apply List.countP_congr
    intro i hi
    rw [h i (List.mem_range.mp hi)]
    cases hbi : b i <;> simp [hbi]
  have h2 : ((List.range 8).countP fun i =>
        decide (¬ score_lookup m x y i = some false ∧
                ¬ score_lookup m x y ((i + 1) % 8) = some false)) =
      (List.range 8).countP fun i => b i && b ((i + 1) % 8) := by
    apply List.countP_congr
    intro i hi
    rw [h i (List.mem_range.mp hi), h ((i + 1) % 8) (Nat.mod_lt _ (by norm_num))]
    cases hbi : b i <;> cases hbj : b ((i + 1) % 8) <;> simp [hbi, hbj]
  rw [h1, h2]

theorem rim0x : (rimOff 0).1 = 0 := rfl
theorem rim0y : (rimOff 0).2 = -1 := rfl
theorem rim1x : (rimOff 1).1 = 1 := rfl
theorem rim1y : (rimOff 1).2 = -1 := rfl
theorem rim2x : (rimOff 2).1 = 1 := rfl
theorem rim2y : (rimOff 2).2 = 0 := rfl
theorem rim3x : (rimOff 3).1 = 1 := rfl
theorem rim3y : (rimOff 3).2 = 1 := rfl
theorem rim4x : (rimOff 4).1 = 0 := rfl
theorem rim4y : (rimOff 4).2 = 1 := rfl
theorem rim5x : (rimOff 5).1 = -1 := rfl
theorem rim5y : (rimOff 5).2 = 1 := rfl
theorem rim6x : (rimOff 6).1 = -1 := rfl
theorem rim6y : (rimOff 6).2 = 0 := rfl
theorem rim7x : (rimOff 7).1 = -1 := rfl
theorem rim7y : (rimOff 7).2 = -1 := rfl

theorem score_lookup_some (m : Mask) (x y i : Nat) (v : Bool)
    (hx0 : 0 ≤ (x : Int) + (rimOff i).1) (hxw : (x : Int) + (rimOff i).1 < (m.w : Int))
    (hy0 : 0 ≤ (y : Int) + (rimOff i).2) (hyh : (y : Int) + (rimOff i).2 < (m.h : Int))
    (hv : m.fg ((x : Int) + (rimOff i).1).toNat ((y : Int) + (rimOff i).2).toNat = v) :
    score_lookup m x y i = some v := by
  unfold score_lookup
  rw [getI_in m _ _ hx0 hxw hy0 hyh, hv]

/-- The four orientations of a straight 1-pixel-wide line. -/
inductive LineDir | horiz | vert | diagDown | diagUp
deriving DecidableEq

/-- The `k`-th pixel of a straight line starting at `(x0, y0)`. -/
def linePix : LineDir → Nat → Nat → Nat → Pos
  | .horiz, x0, y0, k => (x0 + k, y0)
  | .vert, x0, y0, k => (x0, y0 + k)
  | .diagDown, x0, y0, k => (x0 + k, y0 + k)
  | .diagUp, x0, y0, k => (x0 + k, y0 - k)

/-- A mask whose foreground is exactly a straight 1-pixel-wide line of
`n + 1` pixels starting at `(x0, y0)`. -/
def line_mask (d : LineDir) (w h x0 y0 n : Nat) : Mask :=
  ⟨w, h, fun x y =>
    match d with
    | .horiz => decide (y = y0 ∧ x0 ≤ x ∧ x ≤ x0 + n)
    | .vert => decide (x = x0 ∧ y0 ≤ y ∧ y ≤ y0 + n)
    | .diagDown => decide (x0 ≤ x ∧ x ≤ x0 + n ∧ x + y0 = y + x0)
    | .diagUp => decide (x0 ≤ x ∧ x ≤ x0 + n ∧ x + y = x0 + y0)⟩

/-- The line stays at least one pixel away from every grid border. -/
def LineClear (d : LineDir) (w h x0 y0 n : Nat) : Prop :=
  1 ≤ x0 ∧ 1 ≤ y0 ∧
  match d with
  | .horiz => x0 + n + 2 ≤ w ∧ y0 + 2 ≤ h
  | .vert => x0 + 2 ≤ w ∧ y0 + n + 2 ≤ h
  | .diagDown => x0 + n + 2 ≤ w ∧ y0 + n + 2 ≤ h
  | .diagUp => x0 + n + 2 ≤ w ∧ y0 + 2 ≤ h ∧ n + 1 ≤ y0


theorem line_score_horiz_interior (w h x0 y0 n k : Nat)
    (hc : LineClear .horiz w h x0 y0 n) (hk0 : 0 < k) (hkn : k < n) :
    compute_pixel_score (line_mask .horiz w h x0 y0 n) (x0 + k) y0 = 2 := by
  simp only [LineClear] at hc
  obtain ⟨hx1, hy1, hrest⟩ := hc
  rw [score_eq_of_nbrs _ _ _ (fun i => decide (i = 2 ∨ i = 6)) ?_]
  · decide
  · intro i hi
    interval_cases i <;>
    · refine score_lookup_some _ _ _ _ _ ?_ ?_ ?_ ?_ ?_ <;>
        simp [rim0x, rim0y, rim1x, rim1y, rim2x, rim2y, rim3x, rim3y,
          rim4x, rim4y, rim5x, rim5y, rim6x, rim6y, rim7x, rim7y,
          line_mask, decide_eq_decide] <;>
        omega

theorem line_score_horiz_end0 (w h x0 y0 n : Nat)
    (hc : LineClear .horiz w h x0 y0 n) (hn : 1 ≤ n) :
    compute_pixel_score (line_mask .horiz w h x0 y0 n) x0 y0 = 1 := by
  simp only [LineClear] at hc
  obtain ⟨hx1, hy1, hrest⟩ := hc
  rw [score_eq_of_nbrs _ _ _ (fun i => decide (i = 2)) ?_]
  · decide
  · intro i hi
    interval_cases i <;>
    · refine score_lookup_some _ _ _ _ _ ?_ ?_ ?_ ?_ ?_ <;>
        simp [rim0x, rim0y, rim1x, rim1y, rim2x, rim2y, rim3x, rim3y,
          rim4x, rim4y, rim5x, rim5y, rim6x, rim6y, rim7x, rim7y,
          line_mask, decide_eq_decide] <;>
        omega

theorem line_score_horiz_endn (w h x0 y0 n : Nat)
    (hc : LineClear .horiz w h x0 y0 n) (hn : 1 ≤ n) :
    compute_pixel_score (line_mask .horiz w h x0 y0 n) (x0 + n) y0 = 1 := by
  simp only [LineClear] at hc
  obtain ⟨hx1, hy1, hrest⟩ := hc
  rw [score_eq_of_nbrs _ _ _ (fun i => decide (i = 6)) ?_]
  · decide
  · intro i hi
    interval_cases i <;>
    · refine score_lookup_some _ _ _ _ _ ?_ ?_ ?_ ?_ ?_ <;>
        simp [rim0x, rim0y, rim1x, rim1y, rim2x, rim2y, rim3x, rim3y,
          rim4x, rim4y, rim5x, rim5y, rim6x, rim6y, rim7x, rim7y,
          line_mask, decide_eq_decide] <;>
        omega

theorem line_score_vert_interior (w h x0 y0 n k : Nat)
    (hc : LineClear .vert w h x0 y0 n) (hk0 : 0 < k) (hkn : k < n) :
    compute_pixel_score (line_mask .vert w h x0 y0 n) x0 (y0 + k) = 2 := by
  simp only [LineClear] at hc
  obtain ⟨hx1, hy1, hrest⟩ := hc
  rw [score_eq_of_nbrs _ _ _ (fun i => decide (i = 0 ∨ i = 4)) ?_]
  · decide
  · intro i hi
    interval_cases i <;>
    · refine score_lookup_some _ _ _ _ _ ?_ ?_ ?_ ?_ ?_ <;>
        simp [rim0x, rim0y, rim1x, rim1y, rim2x, rim2y, rim3x, rim3y,
          rim4x, rim4y, rim5x, rim5y, rim6x, rim6y, rim7x, rim7y,
          line_mask, decide_eq_decide] <;>
        omega

theorem line_score_vert_end0 (w h x0 y0 n : Nat)
    (hc : LineClear .vert w h x0 y0 n) (hn : 1 ≤ n) :
    compute_pixel_score (line_mask .vert w h x0 y0 n) x0 y0 = 1 := by
  simp only [LineClear] at hc
  obtain ⟨hx1, hy1, hrest⟩ := hc
  rw [score_eq_of_nbrs _ _ _ (fun i => decide (i = 4)) ?_]
  · decide
  · intro i hi
    interval_cases i <;>
    · refine score_lookup_some _ _ _ _ _ ?_ ?_ ?_ ?_ ?_ <;>
        simp [rim0x, rim0y, rim1x, rim1y, rim2x, rim2y, rim3x, rim3y,
          rim4x, rim4y, rim5x, rim5y, rim6x, rim6y, rim7x, rim7y,
          line_mask, decide_eq_decide] <;>
        omega

theorem line_score_vert_endn (w h x0 y0 n : Nat)
    (hc : LineClear .vert w h x0 y0 n) (hn : 1 ≤ n) :
    compute_pixel_score (line_mask .vert w h x0 y0 n) x0 (y0 + n) = 1 := by
  simp only [LineClear] at hc
  obtain ⟨hx1, hy1, hrest⟩ := hc
  rw [score_eq_of_nbrs _ _ _ (fun i => decide (i = 0)) ?_]
  · decide
  · intro i hi
    interval_cases i <;>
    · refine score_lookup_some _ _ _ _ _ ?_ ?_ ?_ ?_ ?_ <;>
        simp [rim0x, rim0y, rim1x, rim1y, rim2x, rim2y, rim3x, rim3y,
          rim4x, rim4y, rim5x, rim5y, rim6x, rim6y, rim7x, rim7y,
          line_mask, decide_eq_decide] <;>
        omega

theorem line_score_diagDown_interior (w h x0 y0 n k : Nat)
    (hc : LineClear .diagDown w h x0 y0 n) (hk0 : 0 < k) (hkn : k < n) :
    compute_pixel_score (line_mask .diagDown w h x0 y0 n) (x0 + k) (y0 + k) = 2 := by
  simp only [LineClear] at hc
  obtain ⟨hx1, hy1, hrest⟩ := hc
  rw [score_eq_of_nbrs _ _ _ (fun i => decide (i = 3 ∨ i = 7)) ?_]
  · decide
  · intro i hi
    interval_cases i <;>
    · refine score_lookup_some _ _ _ _ _ ?_ ?_ ?_ ?_ ?_ <;>
        simp [rim0x, rim0y, rim1x, rim1y, rim2x, rim2y, rim3x, rim3y,
          rim4x, rim4y, rim5x, rim5y, rim6x, rim6y, rim7x, rim7y,
          line_mask, decide_eq_decide] <;>
        omega

theorem line_score_diagDown_end0 (w h x0 y0 n : Nat)
    (hc : LineClear .diagDown w h x0 y0 n) (hn : 1 ≤ n) :
    compute_pixel_score (line_mask .diagDown w h x0 y0 n) x0 y0 = 1 := by
  simp only [LineClear] at hc
  obtain ⟨hx1, hy1, hrest⟩ := hc
  rw [score_eq_of_nbrs _ _ _ (fun i => decide (i = 3)) ?_]
  · decide
  · intro i hi
    interval_cases i <;>
    · refine score_lookup_some _ _ _ _ _ ?_ ?_ ?_ ?_ ?_ <;>
        simp [rim0x, rim0y, rim1x, rim1y, rim2x, rim2y, rim3x, rim3y,
          rim4x, rim4y, rim5x, rim5y, rim6x, rim6y, rim7x, rim7y,
          line_mask, decide_eq_decide] <;>
        omega

theorem line_score_diagDown_endn (w h x0 y0 n : Nat)
    (hc : LineClear .diagDown w h x0 y0 n) (hn : 1 ≤ n) :
    compute_pixel_score (line_mask .diagDown w h x0 y0 n) (x0 + n) (y0 + n) = 1 := by
  simp only [LineClear] at hc
  obtain ⟨hx1, hy1, hrest⟩ := hc
  rw [score_eq_of_nbrs _ _ _ (fun i => decide (i = 7)) ?_]
  · decide
  · intro i hi
    interval_cases i <;>
    · refine score_lookup_some _ _ _ _ _ ?_ ?_ ?_ ?_ ?_ <;>
        simp [rim0x, rim0y, rim1x, rim1y, rim2x, rim2y, rim3x, rim3y,
          rim4x, rim4y, rim5x, rim5y, rim6x, rim6y, rim7x, rim7y,
          line_mask, decide_eq_decide] <;>
        omega

theorem line_score_diagUp_interior (w h x0 y0 n k : Nat)
    (hc : LineClear .diagUp w h x0 y0 n) (hk0 : 0 < k) (hkn : k < n) :
    compute_pixel_score (line_mask .diagUp w h x0 y0 n) (x0 + k) (y0 - k) = 2 := by
  simp only [LineClear] at hc
  obtain ⟨hx1, hy1, hrest⟩ := hc
  rw [score_eq_of_nbrs _ _ _ (fun i => decide (i = 1 ∨ i = 5)) ?_]
  · decide
  · intro i hi
    interval_cases i <;>
    · refine score_lookup_some _ _ _ _ _ ?_ ?_ ?_ ?_ ?_ <;>
        simp [rim0x, rim0y, rim1x, rim1y, rim2x, rim2y, rim3x, rim3y,
          rim4x, rim4y, rim5x, rim5y, rim6x, rim6y, rim7x, rim7y,
          line_mask, decide_eq_decide] <;>
        omega

theorem line_score_diagUp_end0 (w h x0 y0 n : Nat)
    (hc : LineClear .diagUp w h x0 y0 n) (hn : 1 ≤ n) :
    compute_pixel_score (line_mask .diagUp w h x0 y0 n) x0 y0 = 1 := by
  simp only [LineClear] at hc
  obtain ⟨hx1, hy1, hrest⟩ := hc
  rw [score_eq_of_nbrs _ _ _ (fun i => decide (i = 1)) ?_]
  · decide
  · intro i hi
    interval_cases i <;>
    · refine score_lookup_some _ _ _ _ _ ?_ ?_ ?_ ?_ ?_ <;>
        simp [rim0x, rim0y, rim1x, rim1y, rim2x, rim2y, rim3x, rim3y,
          rim4x, rim4y, rim5x, rim5y, rim6x, rim6y, rim7x, rim7y,
          line_mask, decide_eq_decide] <;>
        omega

theorem line_score_diagUp_endn (w h x0 y0 n : Nat)
    (hc : LineClear .diagUp w h x0 y0 n) (hn : 1 ≤ n) :
    compute_pixel_score (line_mask .diagUp w h x0 y0 n) (x0 + n) (y0 - n) = 1 := by
  simp only [LineClear] at hc
  obtain ⟨hx1, hy1, hrest⟩ := hc
  rw [score_eq_of_nbrs _ _ _ (fun i => decide (i = 5)) ?_]
  · decide
  · intro i hi
    interval_cases i <;>
    · refine score_lookup_some _ _ _ _ _ ?_ ?_ ?_ ?_ ?_ <;>
        simp [rim0x, rim0y, rim1x, rim1y, rim2x, rim2y, rim3x, rim3y,
          rim4x, rim4y, rim5x, rim5y, rim6x, rim6y, rim7x, rim7y,
          line_mask, decide_eq_decide] <;>
        omega

/-- C1 counterexample: on the mask that is a single straight 5-pixel
horizontal line occupying a 5-by-1 grid, the source score of the interior
pixel `(2, 0)` is `-6`, not the claimed `neighbor_count - arc_count` with
`arc_count` counting only pairs of IN-BOUNDS foreground neighbors (which
gives `2`): the second loop of `compute_pixel_score` does not skip a pair
when a lookup is out of bounds, so all 8 pairs are counted at the border. -/
theorem C1_counterexample :
    compute_pixel_score (line_mask .horiz 5 1 0 0 4) 2 0 = -6 ∧
    spec_pixel_score (line_mask .horiz 5 1 0 0 4) 2 0 = 2 := by
  decide

/-- C1 (amended): for every pixel whose 8 rim neighbors are all in bounds,
`compute_pixel_score` equals `neighbor_count - arc_count` with `arc_count`
the number of cyclically-adjacent rim pairs that are both in-bounds
foreground; and for a mask that is a single straight 1-pixel-wide line kept
one pixel clear of the grid border, every interior pixel scores exactly 2
and each end pixel scores at most 1.  (At the border the source treats an
out-of-bounds lookup as not-background in the pair count, so the original
unrestricted formula fails there.) -/
theorem C1_pixel_score_amended :
    (∀ m : Mask, ∀ x y : Nat,
        (∀ i < 8, (get_neighboring_pos (x, y) (m.w, m.h) i).isSome) →
        compute_pixel_score m x y = spec_pixel_score m x y) ∧
    (∀ d w h x0 y0 n, LineClear d w h x0 y0 n → 1 ≤ n →
      (∀ k, 0 < k → k < n →
        compute_pixel_score (line_mask d w h x0 y0 n)
          (linePix d x0 y0 k).1 (linePix d x0 y0 k).2 = 2) ∧
      compute_pixel_score (line_mask d w h x0 y0 n)
        (linePix d x0 y0 0).1 (linePix d x0 y0 0).2 ≤ 1 ∧
      compute_pixel_score (line_mask d w h x0 y0 n)
        (linePix d x0 y0 n).1 (linePix d x0 y0 n).2 ≤ 1) := by
  constructor
  · intro m x y hall
    have hb : ∀ i < 8, score_lookup m x y i = some (nbr_fg m (x, y) i) := by
      intro i hi
      rw [score_lookup_eq_nbr]
      cases hg : get_neighboring_pos (x, y) (m.w, m.h) i with
      | none => exact absurd (hall i hi) (by rw [hg]; simp)
      | some p => simp [nbr_fg, hg]
    rw [score_eq_of_nbrs m x y _ hb]
    rfl
  · intro d w h x0 y0 n hc hn
    cases d
    · exact ⟨fun k hk0 hkn => line_score_horiz_interior w h x0 y0 n k hc hk0 hkn,
        le_of_eq (line_score_horiz_end0 w h x0 y0 n hc hn),
        le_of_eq (line_score_horiz_endn w h x0 y0 n hc hn)⟩
    · exact ⟨fun k hk0 hkn => line_score_vert_interior w h x0 y0 n k hc hk0 hkn,
        le_of_eq (line_score_vert_end0 w h x0 y0 n hc hn),
        le_of_eq (line_score_vert_endn w h x0 y0 n hc hn)⟩
    · exact ⟨fun k hk0 hkn => line_score_diagDown_interior w h x0 y0 n k hc hk0 hkn,
        le_of_eq (line_score_diagDown_end0 w h x0 y0 n hc hn),
        le_of_eq (line_score_diagDown_endn w h x0 y0 n hc hn)⟩
    · exact ⟨fun k hk0 hkn => line_score_diagUp_interior w h x0 y0 n k hc hk0 hkn,
        le_of_eq (line_score_diagUp_end0 w h x0 y0 n hc hn),
        le_of_eq (line_score_diagUp_endn w h x0 y0 n hc hn)⟩

/-- Witness for `C1_pixel_score_amended` at a concrete line mask. -/
theorem C1_pixel_score_amended_witness :
    compute_pixel_score (line_mask .horiz 8 4 1 1 4) 3 1 =
      spec_pixel_score (line_mask .horiz 8 4 1 1 4) 3 1 ∧
    compute_pixel_score (line_mask .horiz 8 4 1 1 4) 3 1 = 2 ∧
    compute_pixel_score (line_mask .horiz 8 4 1 1 4) 1 1 ≤ 1 := by
  have h1 := C1_pixel_score_amended.1 (line_mask .horiz 8 4 1 1 4) 3 1 (by decide)
  have h2 := C1_pixel_score_amended.2 .horiz 8 4 1 1 4
    (by simp only [LineClear]; omega) (by omega)
  exact ⟨h1, h2.1 2 (by omega) (by omega), h2.2.1⟩

/-- Node kinds of the topology graph. -/
inductive TopologyNodeType
  | Endpoint
  | Intersection
  | Waypoint
deriving DecidableEq

/-- A topology node: its kind and the classifying pixel's position.  The
source stores the position as `Vector2D::from_xy(x as f64, y as f64)`; the
cast of a small integer to `f64` is exact, so we keep the pixel pair. -/
structure TopologyNode where
  nodeType : TopologyNodeType
  position : Pos
deriving DecidableEq

/-- A topology edge: the ordered waypoint polyline. -/
structure TopologyEdge where
  waypoints : List Pos
deriving DecidableEq

/-- Modelled from the spec: the external graph container (`Graph<TopologyNode,
TopologyEdge>`, not under `src/`).  `add_node` returns monotonically
increasing integer ids — modelled as the index in the node list — and
`add_edge` returns an error when an endpoint id is not a node of the graph
(`GraphInvariantViolation`), which the extractor treats as fatal. -/
structure TGraph where
  nodes : List TopologyNode
  edges : List (Nat × Nat × TopologyEdge)
deriving DecidableEq

/-- Modelled from the spec: `add_node` appends the node and returns its id. -/
def TGraph.add_node (g : TGraph) (n : TopologyNode) : Nat × TGraph :=
  (g.nodes.length, { g with nodes := g.nodes ++ [n] })

/-- Modelled from the spec: `add_edge` succeeds exactly when both endpoint
ids exist in the graph. -/
def TGraph.add_edge (g : TGraph) (a b : Nat) (e : TopologyEdge) : Option TGraph :=
  if a < g.nodes.length ∧ b < g.nodes.length then
    some { g with edges := g.edges ++ [(a, b, e)] }
  else none

/-- Source `BfsData`: one queued visit of the edge tracer. -/
structure BfsData where
  rootNode : Nat
  pos : Pos
  prevPos : Pos
deriving DecidableEq

/-- Source `CellState`. -/
inductive CellState
  | Unvisited
  | Visited
  | Merged
deriving DecidableEq

/-- Source `ExplorationData`: the per-pixel record of the edge tracer. -/
structure ExplorationData where
  cellState : CellState
  rootNode : Option Nat
  pos : Pos
  prevPos : Pos
deriving DecidableEq

/-- The exploration record grid, as a function from pixel to record. -/
abbrev EMap := Pos → ExplorationData

/-- The initial exploration grid built by `Array2::from_shape_fn`: every
cell Unvisited with itself as predecessor and no root. -/
def initEMap : EMap := fun p => ⟨.Unvisited, none, p, p⟩

/-- Pointwise update of one exploration record. -/
def setCell (em : EMap) (p : Pos) (d : ExplorationData) : EMap :=
  fun q => if q = p then d else em q

theorem setCell_same (em : EMap) (p : Pos) (d : ExplorationData) :
    setCell em p d p = d := by
  simp [setCell]

theorem setCell_other (em : EMap) (p q : Pos) (d : ExplorationData) (h : q ≠ p) :
    setCell em p d q = em q := by
  simp [setCell, h]

/-- The `for x in 0..map_width { for y in 0..map_height }` scan order in
which `find_seed_points` inserts foreground pixels. -/
def scanPixels (w h : Nat) : List Pos :=
  (List.range w).flatMap fun x => (List.range h).map fun y => (x, y)

/-- All foreground pixels of the mask in scan order: the initial
`unvisited_points` of `find_seed_points`. -/
def fgPixels (m : Mask) : List Pos :=
  (scanPixels m.w m.h).filter fun p => m.fg p.1 p.2

/-- The inner flood-fill loop of `find_seed_points`: pops a queued point,
and for each in-bounds foreground rim neighbor still unvisited, removes it
from the unvisited list and enqueues it.  Returns the remaining unvisited
list (`connected_points` of the source is only printed and is dropped). -/
def seed_step (m : Mask) (point : Pos) (acc : List Pos × List Pos) (i : Nat) :
    List Pos × List Pos :=
  match get_neighboring_pos point (m.w, m.h) i with
  | some p =>
      if m.fg p.1 p.2 && acc.1.contains p then (acc.1.erase p, acc.2 ++ [p])
      else acc
  | none => acc

def seed_bfs (m : Mask) : Nat → List Pos → List Pos → Option (List Pos)
  | 0, _, _ => none
  | _ + 1, unvisited, [] => some unvisited
  | fuel + 1, unvisited, point :: rest =>
      let step := (List.range 8).foldl (seed_step m point) (unvisited, rest)
      seed_bfs m fuel step.1 step.2

/-- The outer loop of `find_seed_points`.  The source picks an arbitrary
element of a `HashSet`; we determinize to the head of the insertion-order
list, one legal behaviour. -/
def find_seed_points_loop (m : Mask) : Nat → List Pos → List Pos → Option (List Pos)
  | 0, unvisited, seeds => if unvisited.isEmpty then some seeds else none
  | fuel + 1, unvisited, seeds =>
      match unvisited with
      | [] => some seeds
      | seed :: rest =>
          match seed_bfs m (8 * rest.length + rest.length + 2) rest [seed] with
          | some unvisited2 => find_seed_points_loop m fuel unvisited2 (seeds ++ [seed])
          | none => none

/-- Source `find_seed_points`. -/
def find_seed_points (m : Mask) : Option (List Pos) :=
  find_seed_points_loop m (fgPixels m).length (fgPixels m) []

/-- The node-creating classification of one popped pixel in `find_nodes`:
score at most 1 creates an Endpoint, score at least 3 an Intersection, and
each created node pushes one frontier origin with itself as predecessor. -/
def classify_pixel (m : Mask) (g : TGraph) (origins : List BfsData) (count : Nat)
    (p : Pos) : TGraph × List BfsData × Nat :=
  let score := compute_pixel_score m p.1 p.2
  if score ≤ 1 then
    let r := g.add_node ⟨.Endpoint, p⟩
    (r.2, origins ++ [⟨r.1, p, p⟩], count + 1)
  else if 3 ≤ score then
    let r := g.add_node ⟨.Intersection, p⟩
    (r.2, origins ++ [⟨r.1, p, p⟩], count + 1)
  else (g, origins, count)

/-- The neighbor expansion of one popped pixel in the `find_nodes` BFS:
every in-bounds foreground rim neighbor not yet visited is enqueued and
marked visited. -/
def nodes_step (m : Mask) (p : Pos) (acc : List Pos × List Pos) (i : Nat) :
    List Pos × List Pos :=
  match get_neighboring_pos p (m.w, m.h) i with
  | some nb =>
      if m.fg nb.1 nb.2 && !(acc.2.contains nb) then (acc.1 ++ [nb], acc.2 ++ [nb])
      else acc
  | none => acc

def expand_seed (m : Mask) (p : Pos) (queue visited : List Pos) : List Pos × List Pos :=
  (List.range 8).foldl (nodes_step m p) (queue, visited)

/-- The per-seed BFS loop of `find_nodes`: classify the popped pixel, then
expand its neighbors; classification never interrupts the loop.  Returns
the graph, frontier origins, classified count and the last popped pixel
(`recent_point`). -/
def node_bfs (m : Mask) :
    Nat → List Pos → List Pos → TGraph → List BfsData → Nat → Pos →
    Option (TGraph × List BfsData × Nat × Pos)
  | 0, queue, _, g, origins, count, recent =>
      if queue.isEmpty then some (g, origins, count, recent) else none
  | _ + 1, [], _, g, origins, count, recent => some (g, origins, count, recent)
  | fuel + 1, p :: rest, visited, g, origins, count, _ =>
      let c := classify_pixel m g origins count p
      let e := expand_seed m p rest visited
      node_bfs m fuel e.1 e.2 c.1 c.2.1 c.2.2 p

/-- One iteration of the `for seed_point in seed_points` loop of
`find_nodes`: run the component BFS, then create the fallback Waypoint
node (with one frontier origin at the last-visited pixel) exactly when the
BFS classified no pixel. -/
def process_seed (m : Mask) (acc : TGraph × List BfsData) (seed : Pos) :
    Option (TGraph × List BfsData) :=
  match node_bfs m (8 * m.w * m.h + 2) [seed] [seed] acc.1 acc.2 0 (0, 0) with
  | some (g, origins, count, recent) =>
      if count > 0 then some (g, origins)
      else
        let r := g.add_node ⟨.Waypoint, recent⟩
        some (r.2, origins ++ [⟨r.1, recent, recent⟩])
  | none => none

/-- Source `find_nodes`: fold `process_seed` over the seed list. -/
def find_nodes (m : Mask) (seeds : List Pos) (g : TGraph) :
    Option (TGraph × List BfsData) :=
  seeds.foldlM (process_seed m) (g, [])

/-- Whether the rim neighbor `i` of `pos` is an in-bounds foreground pixel
(the first loop of `get_visit_mask`). -/
def get_visit_mask (m : Mask) (pos : Pos) : List Bool :=
  let base := (List.range 8).map fun i => nbr_fg m pos i
  (List.range 4).foldl
    (fun acc i =>
      if nbr_fg m pos (2 * i) then
        ((acc.set ((8 + 2 * i - 1) % 8) false).set ((8 + 2 * i + 1) % 8) false)
      else acc)
    base

/-- The neighbor expansion of a newly Visited cell in `find_edges`: rim
neighbors surviving the visit mask, in bounds, not the predecessor, and
still Unvisited are enqueued with the same root. -/
def expand_edges (m : Mask) (data : BfsData) (em : EMap) : List BfsData :=
  (List.range 8).filterMap fun i =>
    if (get_visit_mask m data.pos).getD i false = false then none
    else
      let x : Int := (data.pos.1 : Int) + (rimOff i).1
      let y : Int := (data.pos.2 : Int) + (rimOff i).2
      if x < 0 ∨ (m.w : Int) ≤ x ∨ y < 0 ∨ (m.h : Int) ≤ y then none
      else
        let nb : Pos := (x.toNat, y.toNat)
        if nb = data.prevPos then none
        else if (em nb).cellState ≠ CellState.Unvisited then none
        else some ⟨data.rootNode, nb, data.pos⟩

/-- The backward walk of `merge_and_add_edge`: follow predecessor links
from `cur`, collecting pixels in visit order, marking each traversed pixel
Merged, until a self-predecessor (frontier origin) pixel is reached (which
is collected but not marked).  Fuel exhaustion models non-termination. -/
def walk_back (em : EMap) : Nat → Pos → Option (EMap × List Pos)
  | 0, _ => none
  | fuel + 1, cur =>
      let prev := (em cur).prevPos
      if prev = cur then some (em, [cur])
      else
        match walk_back (setCell em cur { em cur with cellState := .Merged }) fuel prev with
        | some r => some (r.1, cur :: r.2)
        | none => none

/-- Source `merge_and_add_edge`: read the this-side root, walk back this
side, read the other-side root, walk back the other side, concatenate the
polyline, orient it from the lower node id to the higher (reversing when
the this-side root is not the smaller), and add the edge.  `none` models a
panicking `unwrap`/`expect`. -/
def merge_and_add_edge (g : TGraph) (em : EMap) (wfuel : Nat)
    (thisPrev otherPos : Pos) : Option (TGraph × EMap) := do
  let thisRoot ← (em thisPrev).rootNode
  let r1 ← walk_back em wfuel thisPrev
  let otherRoot ← (r1.1 otherPos).rootNode
  let r2 ← walk_back r1.1 wfuel otherPos
  let wt := r1.2.reverse ++ r2.2
  let lo := if thisRoot < otherRoot then thisRoot else otherRoot
  let hi := if thisRoot < otherRoot then otherRoot else thisRoot
  let wps := if thisRoot < otherRoot then wt else wt.reverse
  let g2 ← g.add_edge lo hi ⟨wps⟩
  return (g2, r2.1)

/-- The edge tracer's state: the graph, the exploration grid and the shared
work queue. -/
structure EState where
  graph : TGraph
  emap : EMap
  queue : List BfsData

/-- One iteration of the `while !bfs_queue.is_empty()` loop of
`find_edges`: pop a visit; discard it if the cell is Merged; reconstruct
and emit an edge if the cell is Visited (a collision); otherwise mark the
cell Visited, record predecessor and root, and enqueue the masked
expansion.  `none` models a panic (out-of-bounds pop or failed unwrap). -/
def find_edges_step (m : Mask) (s : EState) : Option EState :=
  match s.queue with
  | [] => some s
  | data :: rest =>
      let pos := data.pos
      if pos.1 < m.w ∧ pos.2 < m.h then
        match (s.emap pos).cellState with
        | .Merged => some { s with queue := rest }
        | .Visited =>
            match merge_and_add_edge s.graph s.emap (m.w * m.h + 1) data.prevPos pos with
            | some r => some { graph := r.1, emap := r.2, queue := rest }
            | none => none
        | .Unvisited =>
            let em2 := setCell s.emap pos
              ⟨.Visited, some data.rootNode, pos, data.prevPos⟩
            some { s with emap := em2, queue := rest ++ expand_edges m data em2 }
      else none

/-- The fuelled `find_edges` work loop. -/
def find_edges_loop (m : Mask) : Nat → EState → Option EState
  | 0, s => if s.queue.isEmpty then some s else none
  | fuel + 1, s =>
      match s.queue with
      | [] => some s
      | _ :: _ =>
          match find_edges_step m s with
          | some s2 => find_edges_loop m fuel s2
          | none => none

/-- Source `find_edges`: drain the queue seeded with all frontier origins. -/
def find_edges (m : Mask) (g : TGraph) (origins : List BfsData) : Option EState :=
  find_edges_loop m (8 * m.w * m.h + origins.length + 1)
    ⟨g, initEMap, origins⟩

/-- The extraction pipeline from the skeleton mask on (thinning is an
external collaborator consumed before this point): seed points, node
classification, then edge tracing. -/
def extract_from_skeleton (m : Mask) : Option EState := do
  let seeds ← find_seed_points m
  let r ← find_nodes m seeds ⟨[], []⟩
  find_edges m r.1 r.2

/-- Scenario A of the specification: a skeleton mask consisting of a single
5-pixel straight horizontal line, placed one pixel clear of the border of a
7-by-3 grid. -/
def scenarioA : Mask := ⟨7, 3, fun x y => decide (y = 1 ∧ 1 ≤ x ∧ x ≤ 5)⟩

/-- C2 counterexample: on Scenario A the pipeline yields 2 Endpoint nodes
and 1 edge, but the edge's waypoint polyline has 5 points, not 3, and its
first point `(1, 1)` IS the first node's pixel: `merge_and_add_edge` pushes
the origin (node) pixel of each backward walk before breaking, so the node
pixels are included in the polyline. -/
theorem C2_counterexample :
    (extract_from_skeleton scenarioA).map (fun s => (s.graph.nodes, s.graph.edges)) =
      some ([⟨.Endpoint, (1, 1)⟩, ⟨.Endpoint, (5, 1)⟩],
        [(0, 1, ⟨[(1, 1), (2, 1), (3, 1), (4, 1), (5, 1)]⟩)]) ∧
    [(1, 1), (2, 1), (3, 1), (4, 1), (5, 1)].length ≠ 3 ∧
    ((1, 1) : Pos) ∈ [(1, 1), (2, 1), (3, 1), (4, 1), (5, 1)] := by
  refine ⟨by rfl, by decide, by decide⟩

/-- C2 (amended): the traced polyline records the skeleton path between the
two endpoint nodes INCLUDING the node pixels themselves as its first and
last entries; Scenario A yields 2 Endpoint nodes and 1 edge whose polyline
consists of the first node pixel, the 3 interior path points, and the last
node pixel (5 points in total). -/
theorem C2_polyline_amended :
    (extract_from_skeleton scenarioA).map (fun s => (s.graph.nodes, s.graph.edges)) =
      some ([⟨.Endpoint, (1, 1)⟩, ⟨.Endpoint, (5, 1)⟩],
        [(0, 1, ⟨(1, 1) :: ([(2, 1), (3, 1), (4, 1)] ++ [(5, 1)])⟩)]) := by
  rfl

/-- A mask on which the edge tracer attributes a non-origin foreground
pixel to two different edges: a vertical segment at `x = 2` rows `1..4`
plus the pixels `(3, 1)` and `(3, 2)`, forming a 2-by-2 block at the top. -/
def clawMask : Mask :=
  ⟨6, 6, fun x y => decide ((x = 2 ∧ 1 ≤ y ∧ y ≤ 4) ∨ (x = 3 ∧ (y = 1 ∨ y = 2)))⟩

/-- C5 failing run: on `clawMask` the pipeline creates Endpoint nodes at
`(2, 1)`, `(3, 1)`, `(3, 2)`, `(2, 4)` — so `(2, 2)` is not a node (origin)
pixel — yet exactly 2 of the emitted edges contain pixel `(2, 2)` in their
waypoint polylines: the prev-chain through `(2, 2)` is walked and collected
once by the collision at `(2, 2)` itself and again by the later collision at
`(2, 3)`, because `merge_and_add_edge` re-walks already-Merged pixels. -/
theorem C5_pixel_in_two_edges :
    (extract_from_skeleton clawMask).map
        (fun s => (s.graph.nodes.map TopologyNode.position,
          s.graph.edges.countP fun e => decide ((2, 2) ∈ e.2.2.waypoints))) =
      some ([(2, 1), (3, 1), (3, 2), (2, 4)], 2) := by
  decide

/-- C9: an out-of-bounds neighbor is a normal absent value, never a panic:
`get_neighboring_pos` returns `none` exactly when the offset coordinate
falls outside the grid, any position it does return is strictly inside the
grid dimensions, `compute_pixel_score`'s raw lookups yield no value exactly
on the same out-of-bounds condition, and every visit enqueued by the edge
tracer's neighbor expansion is in bounds. -/
theorem C9_out_of_bounds_absent :
    (∀ pos dim : Pos, ∀ i : Nat,
        get_neighboring_pos pos dim i = none ↔
          ((pos.1 : Int) + (rimOff i).1 < 0 ∨
           (dim.1 : Int) ≤ (pos.1 : Int) + (rimOff i).1 ∨
           (pos.2 : Int) + (rimOff i).2 < 0 ∨
           (dim.2 : Int) ≤ (pos.2 : Int) + (rimOff i).2)) ∧
    (∀ pos dim : Pos, ∀ i : Nat, ∀ p : Pos,
        get_neighboring_pos pos dim i = some p → p.1 < dim.1 ∧ p.2 < dim.2) ∧
    (∀ m : Mask, ∀ x y i : Nat,
        score_lookup m x y i = none ↔ get_neighboring_pos (x, y) (m.w, m.h) i = none) ∧
    (∀ m : Mask, ∀ data : BfsData, ∀ em : EMap, ∀ it : BfsData,
        it ∈ expand_edges m data em → it.pos.1 < m.w ∧ it.pos.2 < m.h) := by
  refine ⟨?_, ?_, ?_, ?_⟩
  · intro pos dim i
    simp only [get_neighboring_pos]
    split
    · simp_all
    · simp_all
  · intro pos dim i p h
    simp only [get_neighboring_pos] at h
    split at h
    · exact absurd h (by simp)
    · rename_i hc
      push_neg at hc
      obtain ⟨h1, h2, h3, h4⟩ := hc
      obtain rfl : (((pos.1 : Int) + (rimOff i).1).toNat,
          ((pos.2 : Int) + (rimOff i).2).toNat) = p := by
        simpa using h
      constructor <;> simp only [] <;> omega
  · intro m x y i
    rw [score_lookup_eq_nbr]
    cases hg : get_neighboring_pos (x, y) (m.w, m.h) i <;> simp [hg]
  · intro m data em it h
    simp only [expand_edges] at h
    rw [List.mem_filterMap] at h
    obtain ⟨i, _, hf⟩ := h
    split at hf
    · exact absurd hf (by simp)
    · split at hf
      · exact absurd hf (by simp)
      · rename_i hc
        push_neg at hc
        split at hf
        · exact absurd hf (by simp)
        · split at hf
          · exact absurd hf (by simp)
          · obtain rfl : (⟨data.rootNode,
                (((data.pos.1 : Int) + (rimOff i).1).toNat,
                 ((data.pos.2 : Int) + (rimOff i).2).toNat), data.pos⟩ : BfsData) = it := by
              simpa using hf
            obtain ⟨h1, h2, h3, h4⟩ := hc
            constructor <;> simp only [] <;> omega

/-- Witness for `C9_out_of_bounds_absent` at concrete inputs. -/
theorem C9_out_of_bounds_absent_witness :
    get_neighboring_pos (0, 0) (5, 5) 0 = none ∧
    ((0 : Nat) < 5 ∧ (0 : Nat) < 5) := by
  refine ⟨?_, ?_⟩
  · exact (C9_out_of_bounds_absent.1 (0, 0) (5, 5) 0).mpr (by decide)
  · exact C9_out_of_bounds_absent.2.1 (1, 0) (5, 5) 6 (0, 0) (by decide)

/-- The backward walk only flips cell states to Merged (and only at pixels
whose predecessor differs from themselves); root, position and predecessor
fields are untouched. -/
theorem walk_back_em (em : EMap) (fuel : Nat) (cur : Pos) (em2 : EMap) (l : List Pos)
    (h : walk_back em fuel cur = some (em2, l)) :
    ∀ p, em2 p = em p ∨
      (em2 p = ⟨.Merged, (em p).rootNode, (em p).pos, (em p).prevPos⟩ ∧
        (em p).prevPos ≠ p) := by
  induction fuel generalizing em cur em2 l with
  | zero => exact absurd h (by simp [walk_back])
  | succ fuel ih =>
      intro p
      rw [walk_back] at h
      by_cases hself : (em cur).prevPos = cur
      · rw [if_pos hself] at h
        obtain ⟨rfl, rfl⟩ : em = em2 ∧ [cur] = l := by
          constructor <;> [exact congrArg Prod.fst (Option.some.inj h);
            exact congrArg Prod.snd (Option.some.inj h)]
        exact Or.inl rfl
      · rw [if_neg hself] at h
        set em1 := setCell em cur { em cur with cellState := .Merged } with hem1
        cases hw : walk_back em1 fuel ((em cur).prevPos) with
        | none => rw [hw] at h; exact absurd h (by simp)
        | some r =>
            rw [hw] at h
            obtain ⟨hfst, -⟩ : r.1 = em2 ∧ cur :: r.2 = l := by
              constructor <;> [exact congrArg Prod.fst (Option.some.inj h);
                exact congrArg Prod.snd (Option.some.inj h)]
            subst hfst
            rcases ih em1 _ _ _ hw p with hp | ⟨hp, hne⟩
            · by_cases hpc : p = cur
              · subst hpc
                refine Or.inr ⟨?_, hself⟩
                rw [hp, hem1, setCell_same]
              · rw [hp, hem1, setCell_other _ _ _ _ hpc]
                exact Or.inl rfl
            · by_cases hpc : p = cur
              · subst hpc
                rw [hem1, setCell_same] at hp hne
                exact Or.inr ⟨hp, hself⟩
              · rw [hem1, setCell_other _ _ _ _ hpc] at hp hne
                exact Or.inr ⟨hp, hne⟩

/-- The backward walk preserves every root field. -/
theorem walk_back_root (em : EMap) (fuel : Nat) (cur : Pos) (em2 : EMap) (l : List Pos)
    (h : walk_back em fuel cur = some (em2, l)) :
    ∀ p, (em2 p).rootNode = (em p).rootNode := by
  intro p
  rcases walk_back_em em fuel cur em2 l h p with hp | ⟨hp, -⟩ <;> rw [hp]

/-- The backward walk preserves every predecessor field. -/
theorem walk_back_prev (em : EMap) (fuel : Nat) (cur : Pos) (em2 : EMap) (l : List Pos)
    (h : walk_back em fuel cur = some (em2, l)) :
    ∀ p, (em2 p).prevPos = (em p).prevPos := by
  intro p
  rcases walk_back_em em fuel cur em2 l h p with hp | ⟨hp, -⟩ <;> rw [hp]


/-- Inversion for a successful `add_edge`. -/
theorem add_edge_some (g : TGraph) (a b : Nat) (e : TopologyEdge) (g2 : TGraph)
    (h : g.add_edge a b e = some g2) :
    g2.nodes = g.nodes ∧ g2.edges = g.edges ++ [(a, b, e)] ∧
      a < g.nodes.length ∧ b < g.nodes.length := by
  unfold TGraph.add_edge at h
  split at h
  · rename_i hb
    obtain rfl := Option.some.inj h
    exact ⟨rfl, rfl, hb.1, hb.2⟩
  · exact absurd h (by simp)

/-- C6: every edge added by `merge_and_add_edge` goes from the lower node
id to the higher one, and its waypoint polyline IS the collected backward
path — the reversed this-side walk followed by the other-side walk — kept
as collected when the this-side root is the smaller id and reversed
otherwise; when both roots coincide the self-loop edge is still emitted,
with equal endpoints (the second disjunct with `orr = tr`). -/
theorem C6_edge_direction (g : TGraph) (em : EMap) (wfuel : Nat) (tp op : Pos)
    (g2 : TGraph) (em2 : EMap)
    (h : merge_and_add_edge g em wfuel tp op = some (g2, em2)) :
    ∃ tr orr : Nat, ∃ r1 r2 : EMap × List Pos,
      (em tp).rootNode = some tr ∧ (em op).rootNode = some orr ∧
      walk_back em wfuel tp = some r1 ∧
      walk_back r1.1 wfuel op = some r2 ∧
      em2 = r2.1 ∧ g2.nodes = g.nodes ∧
      ((tr < orr ∧
        g2.edges = g.edges ++ [(tr, orr, ⟨r1.2.reverse ++ r2.2⟩)]) ∨
       (orr ≤ tr ∧
        g2.edges = g.edges ++ [(orr, tr, ⟨(r1.2.reverse ++ r2.2).reverse⟩)])) := by
  simp only [merge_and_add_edge, Option.bind_eq_bind, Option.bind_eq_some] at h
  obtain ⟨tr, htr, r1, hw1, orr, horr, r2, hw2, gr, hadd, hpair⟩ := h
  have horr2 : (em op).rootNode = some orr := by
    rw [← walk_back_root em wfuel tp r1.1 r1.2 (by rw [hw1]) op]
    exact horr
  obtain ⟨rfl, hem⟩ : gr = g2 ∧ r2.1 = em2 := by
    constructor
    · exact congrArg Prod.fst (Option.some.inj hpair)
    · exact congrArg Prod.snd (Option.some.inj hpair)
  obtain ⟨hn, he, -, -⟩ := add_edge_some _ _ _ _ _ hadd
  refine ⟨tr, orr, r1, r2, htr, horr2, hw1, hw2, hem.symm, hn, ?_⟩
  by_cases hlt : tr < orr
  · exact Or.inl ⟨hlt, by simpa only [if_pos hlt] using he⟩
  · exact Or.inr ⟨by omega, by simpa only [if_neg hlt] using he⟩

/-- A two-node graph for exercising `merge_and_add_edge` directly. -/
def C6wGraph : TGraph := ⟨[⟨.Endpoint, (0, 0)⟩, ⟨.Endpoint, (1, 0)⟩], []⟩

/-- An exploration map with two adjacent origin cells owned by nodes 0, 1. -/
def C6wMap : EMap :=
  setCell (setCell initEMap (0, 0) ⟨.Visited, some 0, (0, 0), (0, 0)⟩)
    (1, 0) ⟨.Visited, some 1, (1, 0), (1, 0)⟩

/-- Witness for `C6_edge_direction` at a concrete collision: the single
emitted edge runs from node 0 to node 1 and its polyline is exactly the
collected two-pixel backward path, in collected order. -/
theorem C6_edge_direction_witness :
    ∃ g2 : TGraph, ∃ em2 : EMap,
      merge_and_add_edge C6wGraph C6wMap 3 (0, 0) (1, 0) = some (g2, em2) ∧
      g2.edges = [(0, 1, ⟨[(0, 0), (1, 0)]⟩)] := by
  have hs : (merge_and_add_edge C6wGraph C6wMap 3 (0, 0) (1, 0)).isSome = true := rfl
  obtain ⟨r, hr⟩ := Option.isSome_iff_exists.mp hs
  obtain ⟨g2, em2⟩ := r
  obtain ⟨tr, orr, r1, r2, htr, horr, hw1, hw2, -, -, hed⟩ :=
    C6_edge_direction _ _ _ _ _ _ _ hr
  have htr0 : tr = 0 := by
    have h0 : (C6wMap (0, 0)).rootNode = some 0 := rfl
    exact Option.some.inj (htr.symm.trans h0)
  have horr1 : orr = 1 := by
    have h1 : (C6wMap (1, 0)).rootNode = some 1 := rfl
    exact Option.some.inj (horr.symm.trans h1)
  have hr1 : r1 = (C6wMap, [(0, 0)]) := by
    have h1 : walk_back C6wMap 3 (0, 0) = some (C6wMap, [(0, 0)]) := rfl
    exact Option.some.inj (hw1.symm.trans h1)
  subst hr1
  have hr2 : r2 = (C6wMap, [(1, 0)]) := by
    have h2 : walk_back C6wMap 3 (1, 0) = some (C6wMap, [(1, 0)]) := rfl
    exact Option.some.inj (hw2.symm.trans h2)
  subst hr2
  subst htr0
  subst horr1
  rcases hed with ⟨-, he⟩ | ⟨hle, -⟩
  · exact ⟨g2, em2, hr, by simpa [C6wGraph] using he⟩
  · exact absurd hle (by decide)

/-- C3: in the `find_nodes` BFS, a popped pixel with score at most 1 adds
one Endpoint node at its position, a score of at least 3 adds one
Intersection node, and a score of exactly 2 adds nothing; every created
node registers exactly one frontier origin whose position and predecessor
are the classified pixel and whose root is the id just returned by
`add_node`; and the BFS recursion continues identically in all three
cases (classification never stops the traversal). -/
theorem C3_classification (m : Mask) (g : TGraph) (origins : List BfsData)
    (count : Nat) (p : Pos) :
    (compute_pixel_score m p.1 p.2 ≤ 1 →
      classify_pixel m g origins count p =
        ({ g with nodes := g.nodes ++ [⟨.Endpoint, p⟩] },
         origins ++ [⟨g.nodes.length, p, p⟩], count + 1)) ∧
    (3 ≤ compute_pixel_score m p.1 p.2 →
      classify_pixel m g origins count p =
        ({ g with nodes := g.nodes ++ [⟨.Intersection, p⟩] },
         origins ++ [⟨g.nodes.length, p, p⟩], count + 1)) ∧
    (compute_pixel_score m p.1 p.2 = 2 →
      classify_pixel m g origins count p = (g, origins, count)) ∧
    (∀ fuel : Nat, ∀ rest visited : List Pos, ∀ recent : Pos,
      node_bfs m (fuel + 1) (p :: rest) visited g origins count recent =
        node_bfs m fuel (expand_seed m p rest visited).1
          (expand_seed m p rest visited).2
          (classify_pixel m g origins count p).1
          (classify_pixel m g origins count p).2.1
          (classify_pixel m g origins count p).2.2 p) := by
  refine ⟨?_, ?_, ?_, ?_⟩
  · intro hs
    unfold classify_pixel
    rw [if_pos hs]
    rfl
  · intro hs
    unfold classify_pixel
    rw [if_neg (by omega), if_pos hs]
    rfl
  · intro hs
    unfold classify_pixel
    rw [if_neg (by omega), if_neg (by omega)]
  · intro fuel rest visited recent
    rfl

/-- Witness for `C3_classification` on Scenario A: pixel `(1, 1)` scores 1
and becomes an Endpoint with origin root 0; pixel `(2, 1)` scores 2 and
creates nothing. -/
theorem C3_classification_witness :
    classify_pixel scenarioA ⟨[], []⟩ [] 0 (1, 1) =
      (⟨[⟨.Endpoint, (1, 1)⟩], []⟩, [⟨0, (1, 1), (1, 1)⟩], 1) ∧
    classify_pixel scenarioA ⟨[], []⟩ [] 0 (2, 1) = (⟨[], []⟩, [], 0) := by
  have h1 := C3_classification scenarioA ⟨[], []⟩ [] 0 (1, 1)
  have h2 := C3_classification scenarioA ⟨[], []⟩ [] 0 (2, 1)
  exact ⟨(h1.1 (by decide)).trans (by decide), (h2.2.2.1 (by decide)).trans (by decide)⟩

/-- Classification accounting: the classified-pixel counter of
`classify_pixel` rises exactly with the number of nodes added. -/
theorem classify_pixel_len (m : Mask) (g : TGraph) (origins : List BfsData)
    (count : Nat) (p : Pos) :
    (classify_pixel m g origins count p).1.nodes.length + count =
      g.nodes.length + (classify_pixel m g origins count p).2.2 ∧
    count ≤ (classify_pixel m g origins count p).2.2 := by
  simp only [classify_pixel, TGraph.add_node]
  split
  · constructor <;> simp <;> omega
  · split
    · constructor <;> simp <;> omega
    · constructor <;> simp

/-- BFS accounting: across a whole `node_bfs` run the number of nodes the
graph gained equals the number of classified pixels counted. -/
theorem node_bfs_count (m : Mask) (fuel : Nat) :
    ∀ queue visited : List Pos, ∀ g : TGraph, ∀ origins : List BfsData,
    ∀ count : Nat, ∀ recent : Pos, ∀ g2 : TGraph, ∀ origins2 : List BfsData,
    ∀ count2 : Nat, ∀ recent2 : Pos,
    node_bfs m fuel queue visited g origins count recent =
      some (g2, origins2, count2, recent2) →
    g2.nodes.length + count = g.nodes.length + count2 ∧ count ≤ count2 := by
  induction fuel with
  | zero =>
      intro queue visited g origins count recent g2 origins2 count2 recent2 h
      rw [node_bfs] at h
      split at h
      · obtain ⟨rfl, rfl, rfl, rfl⟩ :
            g = g2 ∧ origins = origins2 ∧ count = count2 ∧ recent = recent2 := by
          have := Option.some.inj h
          exact ⟨congrArg (fun r => r.1) this, congrArg (fun r => r.2.1) this,
            congrArg (fun r => r.2.2.1) this, congrArg (fun r => r.2.2.2) this⟩
        omega
      · exact absurd h (by simp)
  | succ fuel ih =>
      intro queue visited g origins count recent g2 origins2 count2 recent2 h
      match queue with
      | [] =>
          rw [node_bfs] at h
          obtain ⟨rfl, rfl, rfl, rfl⟩ :
              g = g2 ∧ origins = origins2 ∧ count = count2 ∧ recent = recent2 := by
            have := Option.some.inj h
            exact ⟨congrArg (fun r => r.1) this, congrArg (fun r => r.2.1) this,
              congrArg (fun r => r.2.2.1) this, congrArg (fun r => r.2.2.2) this⟩
          omega
      | p :: rest =>
          rw [node_bfs] at h
          have hcl := classify_pixel_len m g origins count p
          have hrec := ih (expand_seed m p rest visited).1 (expand_seed m p rest visited).2
            (classify_pixel m g origins count p).1
            (classify_pixel m g origins count p).2.1
            (classify_pixel m g origins count p).2.2 p
            g2 origins2 count2 recent2 h
          omega

/-- C7: for each seed's component, `process_seed` creates a Waypoint node
if and only if the component BFS classified zero pixels (equivalently,
added no Endpoint or Intersection node); in that case it creates exactly
one Waypoint, positioned at the last pixel popped by the BFS (its returned
`recent_point`), and registers exactly one frontier origin there. -/
theorem C7_waypoint (m : Mask) (acc : TGraph × List BfsData) (seed : Pos)
    (g2 : TGraph) (origins2 : List BfsData)
    (h : process_seed m acc seed = some (g2, origins2)) :
    ∃ gB : TGraph, ∃ originsB : List BfsData, ∃ count : Nat, ∃ recent : Pos,
      node_bfs m (8 * m.w * m.h + 2) [seed] [seed] acc.1 acc.2 0 (0, 0) =
        some (gB, originsB, count, recent) ∧
      (count = 0 ↔ gB.nodes.length = acc.1.nodes.length) ∧
      (count = 0 →
        g2 = { gB with nodes := gB.nodes ++ [⟨.Waypoint, recent⟩] } ∧
        origins2 = originsB ++ [⟨gB.nodes.length, recent, recent⟩]) ∧
      (count ≠ 0 → g2 = gB ∧ origins2 = originsB) := by
  unfold process_seed at h
  split at h
  · rename_i gB originsB count recent hbfs
    have hcnt := node_bfs_count m (8 * m.w * m.h + 2) [seed] [seed] acc.1 acc.2 0 (0, 0)
      gB originsB count recent hbfs
    refine ⟨gB, originsB, count, recent, hbfs, by omega, ?_, ?_⟩
    · intro hc
      subst hc
      rw [if_neg (by omega)] at h
      have := Option.some.inj h
      exact ⟨(congrArg Prod.fst this).symm, (congrArg Prod.snd this).symm⟩
    · intro hc
      rw [if_pos (by omega)] at h
      have := Option.some.inj h
      exact ⟨(congrArg Prod.fst this).symm, (congrArg Prod.snd this).symm⟩
  · exact absurd h (by simp)

/-- A 5-by-5 mask whose foreground is a closed square ring with no branch
or dead end: every pixel scores 2, so the component classifies nothing. -/
def ringMask : Mask :=
  ⟨5, 5, fun x y => decide ((1 ≤ x ∧ x ≤ 3 ∧ 1 ≤ y ∧ y ≤ 3) ∧ ¬(x = 2 ∧ y = 2))⟩

/-- Witness for `C7_waypoint`: the ring component yields exactly one
Waypoint node with one frontier origin at the last-visited pixel. -/
theorem C7_waypoint_witness :
    (process_seed ringMask (⟨[], []⟩, []) (1, 1)).map
        (fun r => (r.1.nodes, r.2)) =
      some ([⟨.Waypoint, (3, 3)⟩], [⟨0, (3, 3), (3, 3)⟩]) := by
  have hs : (process_seed ringMask (⟨[], []⟩, []) (1, 1)).isSome = true := by rfl
  obtain ⟨r, hr⟩ := Option.isSome_iff_exists.mp hs
  obtain ⟨g2, origins2⟩ := r
  obtain ⟨gB, originsB, count, recent, hbfs, -, hzero, -⟩ :=
    C7_waypoint ringMask (⟨[], []⟩, []) (1, 1) g2 origins2 hr
  have hconc : node_bfs ringMask (8 * ringMask.w * ringMask.h + 2)
      [(1, 1)] [(1, 1)] (⟨[], []⟩ : TGraph) [] 0 (0, 0) =
      some (⟨[], []⟩, [], 0, (3, 3)) := by decide
  rw [hconc] at hbfs
  obtain ⟨rfl, rfl, rfl, rfl⟩ :
      (⟨[], []⟩ : TGraph) = gB ∧ ([] : List BfsData) = originsB ∧
        0 = count ∧ ((3, 3) : Pos) = recent := by
    have := Option.some.inj hbfs
    exact ⟨congrArg (fun r => r.1) this, congrArg (fun r => r.2.1) this,
      congrArg (fun r => r.2.2.1) this, congrArg (fun r => r.2.2.2) this⟩
  obtain ⟨rfl, rfl⟩ := hzero rfl
  rw [hr]
  rfl

/-- Explicit form of the visit mask: orthogonal entries are the raw
foreground bits; a diagonal entry survives only if neither flanking
orthogonal neighbor is an in-bounds foreground pixel. -/
theorem get_visit_mask_eq (m : Mask) (pos : Pos) :
    get_visit_mask m pos =
      [nbr_fg m pos 0,
       nbr_fg m pos 1 && !(nbr_fg m pos 0 || nbr_fg m pos 2),
       nbr_fg m pos 2,
       nbr_fg m pos 3 && !(nbr_fg m pos 2 || nbr_fg m pos 4),
       nbr_fg m pos 4,
       nbr_fg m pos 5 && !(nbr_fg m pos 4 || nbr_fg m pos 6),
       nbr_fg m pos 6,
       nbr_fg m pos 7 && !(nbr_fg m pos 6 || nbr_fg m pos 0)] := by
  have hr8 : List.range 8 = [0, 1, 2, 3, 4, 5, 6, 7] := by decide
  have hr4 : List.range 4 = [0, 1, 2, 3] := by decide
  unfold get_visit_mask
  rw [hr8, hr4]
  simp only [List.map_cons, List.map_nil, List.foldl_cons, List.foldl_nil]
  cases h0 : nbr_fg m pos 0 <;> cases h2 : nbr_fg m pos 2 <;>
    cases h4 : nbr_fg m pos 4 <;> cases h6 : nbr_fg m pos 6 <;>
    simp [List.set]

/-- A pixel lies strictly inside the grid of mask `m`. -/
def inBnd (m : Mask) (p : Pos) : Prop := p.1 < m.w ∧ p.2 < m.h

instance (m : Mask) (p : Pos) : Decidable (inBnd m p) := by
  unfold inBnd
  infer_instance

/-- A cell has been claimed by the edge tracer (Visited or Merged). -/
def covered (em : EMap) (p : Pos) : Prop := (em p).cellState ≠ .Unvisited

/-- Number of still-Unvisited cells of the grid. -/
def unvisited_count (m : Mask) (em : EMap) : Nat :=
  (scanPixels m.w m.h).countP fun p => decide ((em p).cellState = .Unvisited)

/-- Number of claimed (Visited or Merged) cells of the grid. -/
def visited_count (m : Mask) (em : EMap) : Nat :=
  (scanPixels m.w m.h).countP fun p => decide (¬ (em p).cellState = .Unvisited)

/-- Termination potential of the edge tracer's loop. -/
def phi (m : Mask) (s : EState) : Nat :=
  8 * unvisited_count m s.emap + s.queue.length

/-- The predecessor chain from `p` reaches a self-predecessor cell within
`k` steps. -/
inductive Reaches (em : EMap) : Pos → Nat → Prop
  | self (p : Pos) (k : Nat) : (em p).prevPos = p → Reaches em p k
  | step (p : Pos) (k : Nat) : (em p).prevPos ≠ p →
      Reaches em ((em p).prevPos) k → Reaches em p (k + 1)

theorem Reaches.mono {em : EMap} {p : Pos} {k k2 : Nat}
    (h : Reaches em p k) (hk : k ≤ k2) : Reaches em p k2 := by
  induction h generalizing k2 with
  | self p k hp => exact Reaches.self p k2 hp
  | step p k hp hr ih =>
      obtain ⟨k3, rfl⟩ : ∃ k3, k2 = k3 + 1 := ⟨k2 - 1, by omega⟩
      exact Reaches.step p k3 hp (ih (by omega))

/-- Chains only depend on the predecessor fields. -/
theorem reaches_congr_all (em em2 : EMap)
    (hp : ∀ q, (em2 q).prevPos = (em q).prevPos) (p : Pos) (k : Nat)
    (h : Reaches em p k) : Reaches em2 p k := by
  induction h with
  | self p k hs => exact Reaches.self p k (by rw [hp]; exact hs)
  | step p k hs hr ih =>
      refine Reaches.step p k (by rw [hp]; exact hs) ?_
      rw [hp]
      exact ih

/-- `em2` differs from `em` at most by flipping some cells (whose
predecessor is not themselves) to Merged. -/
def MergedOnly (em em2 : EMap) : Prop :=
  ∀ p, em2 p = em p ∨
    (em2 p = ⟨.Merged, (em p).rootNode, (em p).pos, (em p).prevPos⟩ ∧
      (em p).prevPos ≠ p)

theorem MergedOnly.refl (em : EMap) : MergedOnly em em := fun _ => Or.inl rfl

theorem MergedOnly.prev {em em2 : EMap} (h : MergedOnly em em2) (p : Pos) :
    (em2 p).prevPos = (em p).prevPos := by
  rcases h p with hp | ⟨hp, -⟩ <;> rw [hp]

theorem MergedOnly.root {em em2 : EMap} (h : MergedOnly em em2) (p : Pos) :
    (em2 p).rootNode = (em p).rootNode := by
  rcases h p with hp | ⟨hp, -⟩ <;> rw [hp]

theorem MergedOnly.trans {em em1 em2 : EMap}
    (h1 : MergedOnly em em1) (h2 : MergedOnly em1 em2) : MergedOnly em em2 := by
  intro p
  rcases h2 p with hp2 | ⟨hp2, hne2⟩
  · rw [hp2]; exact h1 p
  · rcases h1 p with hp1 | ⟨hp1, hne1⟩
    · rw [hp2, hp1]
      right
      rw [hp1] at hne2
      exact ⟨rfl, hne2⟩
    · rw [hp2, hp1]
      right
      rw [hp1] at hne2
      exact ⟨rfl, hne1⟩

/-- A `MergedOnly` change never un-covers a cell, and under the invariant
that Unvisited cells are self-predecessor it never covers a new one. -/
theorem MergedOnly.covered_iff {em em2 : EMap} (h : MergedOnly em em2)
    (hself : ∀ p, (em p).cellState = .Unvisited → (em p).prevPos = p) (p : Pos) :
    (covered em2 p ↔ covered em p) := by
  rcases h p with hp | ⟨hp, hne⟩
  · rw [covered, hp]; exact Iff.rfl
  · unfold covered
    rw [hp]
    simp only
    constructor
    · intro _
      intro hu
      exact hne (hself p hu)
    · intro _
      exact fun hc => CellState.noConfusion hc

/-- The backward walk is a `MergedOnly` change. -/
theorem walk_back_mergedOnly (em : EMap) (fuel : Nat) (cur : Pos) (em2 : EMap)
    (l : List Pos) (h : walk_back em fuel cur = some (em2, l)) :
    MergedOnly em em2 :=
  fun p => walk_back_em em fuel cur em2 l h p

/-- The backward walk succeeds whenever the predecessor chain of its start
reaches an origin within the fuel. -/
theorem walk_back_some (fuel : Nat) :
    ∀ em : EMap, ∀ p : Pos, ∀ k : Nat, Reaches em p k → k < fuel →
    ∃ em2 l, walk_back em fuel p = some (em2, l) := by
  induction fuel with
  | zero => intro em p k _ hk; omega
  | succ fuel ih =>
      intro em p k hr hk
      by_cases hp : (em p).prevPos = p
      · exact ⟨em, [p], by rw [walk_back, if_pos hp]⟩
      · cases hr with
        | self _ _ hp2 => exact absurd hp2 hp
        | step _ k2 hne hr2 =>
            set em1 := setCell em p { em p with cellState := .Merged } with hem1
            have hg : ∀ q, (em1 q).prevPos = (em q).prevPos := by
              intro q
              by_cases hq : q = p
              · subst hq; rw [hem1, setCell_same]
              · rw [hem1, setCell_other _ _ _ _ hq]
            have hr1 : Reaches em1 ((em p).prevPos) k2 :=
              reaches_congr_all em em1 hg _ _ hr2
            obtain ⟨em2, l, hw⟩ := ih em1 ((em p).prevPos) k2 hr1 (by omega)
            refine ⟨em2, p :: l, ?_⟩
            rw [walk_back, if_neg hp, ← hem1, hw]

theorem mem_scanPixels (w h : Nat) (p : Pos) :
    p ∈ scanPixels w h ↔ p.1 < w ∧ p.2 < h := by
  simp only [scanPixels, List.mem_flatMap, List.mem_map, List.mem_range]
  constructor
  · rintro ⟨x, hx, y, hy, rfl⟩
    exact ⟨hx, hy⟩
  · rintro ⟨h1, h2⟩
    exact ⟨p.1, h1, p.2, h2, rfl⟩

theorem scanPixels_nodup (w h : Nat) : (scanPixels w h).Nodup := by
  have he : scanPixels w h = (List.range w).product (List.range h) := rfl
  rw [he]
  exact List.Nodup.product (List.nodup_range w) (List.nodup_range h)

theorem scanPixels_length (w h : Nat) : (scanPixels w h).length = w * h := by
  simp [scanPixels, Function.comp_def, Nat.mul_comm]

/-- Flipping the predicate from true to false at one element of a
duplicate-free list lowers the count by exactly one. -/
theorem countP_flip (f g : Pos → Bool) (p0 : Pos) :
    ∀ l : List Pos, l.Nodup → p0 ∈ l → (∀ q ∈ l, q ≠ p0 → f q = g q) →
    f p0 = true → g p0 = false → l.countP g + 1 = l.countP f := by
  intro l
  induction l with
  | nil => intro _ hm; exact absurd hm (by simp)
  | cons a tl ih =>
      intro hnd hm hfg hf hg
      have hnd2 := List.nodup_cons.mp hnd
      rw [List.countP_cons, List.countP_cons]
      rcases List.mem_cons.mp hm with rfl | hmem
      · have : tl.countP f = tl.countP g := by
          apply List.countP_congr
          intro q hq
          rw [hfg q (List.mem_cons_of_mem _ hq) (fun hqe => hnd2.1 (hqe ▸ hq))]
        rw [hf, hg, this]
        simp
      · have hne : a ≠ p0 := fun hae => hnd2.1 (hae ▸ hmem)
        have := ih hnd2.2 hmem (fun q hq hqn => hfg q (List.mem_cons_of_mem _ hq) hqn) hf hg
        rw [hfg a (List.mem_cons_self a tl) hne]
        omega


/-- A `MergedOnly` change keeps both cell counts (under the invariant that
Unvisited cells are self-predecessor). -/
theorem mergedOnly_counts (m : Mask) (em em2 : EMap) (h : MergedOnly em em2)
    (hself : ∀ p, (em p).cellState = .Unvisited → (em p).prevPos = p) :
    unvisited_count m em2 = unvisited_count m em ∧
    visited_count m em2 = visited_count m em := by
  have hpt : ∀ p, ((em2 p).cellState = .Unvisited ↔ (em p).cellState = .Unvisited) := by
    intro p
    have := h.covered_iff hself p
    unfold covered at this
    constructor
    · intro he
      by_contra hc
      exact (this.mpr hc) he
    · intro he
      by_contra hc
      exact (this.mp hc) he
  constructor
  · apply List.countP_congr
    intro p _
    simp [hpt p]
  · apply List.countP_congr
    intro p _
    simp [hpt p]

/-- Claiming one Unvisited in-bounds cell: the visited count rises by one
and the unvisited count drops by one. -/
theorem counts_setCell (m : Mask) (em : EMap) (p0 : Pos) (d : ExplorationData)
    (hin : inBnd m p0) (hu : (em p0).cellState = .Unvisited)
    (hd : ¬ d.cellState = .Unvisited) :
    visited_count m (setCell em p0 d) = visited_count m em + 1 ∧
    unvisited_count m (setCell em p0 d) + 1 = unvisited_count m em := by
  have hmem : p0 ∈ scanPixels m.w m.h := (mem_scanPixels _ _ _).mpr hin
  have hnd := scanPixels_nodup m.w m.h
  constructor
  · unfold visited_count
    rw [← countP_flip (fun p => decide (¬ (setCell em p0 d p).cellState = .Unvisited))
        (fun p => decide (¬ (em p).cellState = .Unvisited)) p0 _ hnd hmem ?_ ?_ ?_]
    · intro q _ hq
      simp only [setCell_other _ _ _ _ hq]
    · simp [setCell_same, hd]
    · simp [hu]
  · unfold unvisited_count
    rw [countP_flip (fun p => decide ((em p).cellState = .Unvisited))
        (fun p => decide ((setCell em p0 d p).cellState = .Unvisited)) p0 _ hnd hmem ?_ ?_ ?_]
    · intro q _ hq
      simp only [setCell_other _ _ _ _ hq]
    · simp [hu]
    · simp [setCell_same, hd]

/-- The visited count never exceeds the number of grid cells. -/
theorem visited_count_le (m : Mask) (em : EMap) :
    visited_count m em ≤ m.w * m.h := by
  calc visited_count m em ≤ (scanPixels m.w m.h).length := List.countP_le_length _
    _ = m.w * m.h := scanPixels_length m.w m.h

/-- Masked adjacency of the edge tracer: `q` is a rim neighbor of `p` that
survives the visit mask of `p`. -/
def maskAdj (m : Mask) (p q : Pos) : Prop :=
  ∃ i, i < 8 ∧ get_neighboring_pos p (m.w, m.h) i = some q ∧
    (get_visit_mask m p).getD i false = true

/-- Characterization of a successful neighbor computation. -/
theorem gnp_char (p dim : Pos) (i : Nat) (q : Pos) :
    get_neighboring_pos p dim i = some q ↔
      (¬ ((p.1 : Int) + (rimOff i).1 < 0 ∨ (dim.1 : Int) ≤ (p.1 : Int) + (rimOff i).1 ∨
          (p.2 : Int) + (rimOff i).2 < 0 ∨ (dim.2 : Int) ≤ (p.2 : Int) + (rimOff i).2) ∧
       q = (((p.1 : Int) + (rimOff i).1).toNat, ((p.2 : Int) + (rimOff i).2).toNat)) := by
  simp only [get_neighboring_pos]
  split
  · rename_i hc
    simp only [reduceCtorEq, false_iff, not_and]
    intro hn
    exact absurd hc hn
  · rename_i hc
    simp only [Option.some.injEq]
    constructor
    · intro he
      exact ⟨hc, he.symm⟩
    · intro he
      exact he.2.symm

/-- In-bounds neighbor coordinates as integer equations. -/
theorem gnp_coords (p dim : Pos) (i : Nat) (q : Pos)
    (h : get_neighboring_pos p dim i = some q) :
    (q.1 : Int) = (p.1 : Int) + (rimOff i).1 ∧
    (q.2 : Int) = (p.2 : Int) + (rimOff i).2 ∧
    q.1 < dim.1 ∧ q.2 < dim.2 := by
  obtain ⟨hb, rfl⟩ := (gnp_char p dim i q).mp h
  push_neg at hb
  obtain ⟨h1, h2, h3, h4⟩ := hb
  refine ⟨?_, ?_, ?_, ?_⟩ <;> simp only [] <;> omega

/-- A rim neighbor is never the pixel itself. -/
theorem gnp_ne (p dim : Pos) (i : Nat) (hi : i < 8) (q : Pos)
    (h : get_neighboring_pos p dim i = some q) : q ≠ p := by
  obtain ⟨h1, h2, -, -⟩ := gnp_coords p dim i q h
  intro he
  subst he
  interval_cases i <;>
    simp only [rim0x, rim0y, rim1x, rim1y, rim2x, rim2y, rim3x, rim3y,
      rim4x, rim4y, rim5x, rim5y, rim6x, rim6y, rim7x, rim7y] at h1 h2 <;>
    omega

/-- A foreground rim-neighbor bit certifies an in-bounds foreground pixel. -/
theorem nbr_fg_iff (m : Mask) (p : Pos) (i : Nat) :
    nbr_fg m p i = true ↔
      ∃ q, get_neighboring_pos p (m.w, m.h) i = some q ∧ m.fg q.1 q.2 = true := by
  unfold nbr_fg
  cases hg : get_neighboring_pos p (m.w, m.h) i with
  | none => simp
  | some q => simp [hg]

/-- Any true visit-mask entry certifies an in-bounds foreground neighbor. -/
theorem mask_true_nbr (m : Mask) (p : Pos) (i : Nat) (hi : i < 8)
    (h : (get_visit_mask m p).getD i false = true) : nbr_fg m p i = true := by
  rw [get_visit_mask_eq] at h
  interval_cases i <;> simp_all

/-- Orthogonal visit-mask entries are exactly the raw foreground bits. -/
theorem mask_even (m : Mask) (p : Pos) (j : Nat) (hj : j < 4) :
    (get_visit_mask m p).getD (2 * j) false = nbr_fg m p (2 * j) := by
  rw [get_visit_mask_eq]
  interval_cases j <;> rfl

/-- A cleared foreground diagonal has a foreground flanking orthogonal. -/
theorem mask_odd_cleared (m : Mask) (p : Pos) (i : Nat)
    (hi : i = 1 ∨ i = 3 ∨ i = 5 ∨ i = 7)
    (hf : nbr_fg m p i = true)
    (h : (get_visit_mask m p).getD i false = false) :
    nbr_fg m p ((i + 7) % 8) = true ∨ nbr_fg m p ((i + 1) % 8) = true := by
  rw [get_visit_mask_eq] at h
  rcases hi with rfl | rfl | rfl | rfl
  · cases hl : nbr_fg m p 0
    · cases hr : nbr_fg m p 2
      · simp [hf, hl, hr] at h
      · exact Or.inr (by simpa using hr)
    · exact Or.inl (by simpa using hl)
  · cases hl : nbr_fg m p 2
    · cases hr : nbr_fg m p 4
      · simp [hf, hl, hr] at h
      · exact Or.inr (by simpa using hr)
    · exact Or.inl (by simpa using hl)
  · cases hl : nbr_fg m p 4
    · cases hr : nbr_fg m p 6
      · simp [hf, hl, hr] at h
      · exact Or.inr (by simpa using hr)
    · exact Or.inl (by simpa using hl)
  · cases hl : nbr_fg m p 6
    · cases hr : nbr_fg m p 0
      · simp [hf, hl, hr] at h
      · exact Or.inr (by simpa using hr)
    · exact Or.inl (by simpa using hl)

/-- Soundness of the tracer's neighbor expansion: every enqueued visit has
the same root, the expanded pixel as predecessor, targets a masked
in-bounds neighbor that is still Unvisited and is not the predecessor. -/
theorem expand_edges_mem (m : Mask) (data : BfsData) (em : EMap) (it : BfsData)
    (h : it ∈ expand_edges m data em) :
    it.rootNode = data.rootNode ∧ it.prevPos = data.pos ∧
    maskAdj m data.pos it.pos ∧ (em it.pos).cellState = .Unvisited ∧
    it.pos ≠ data.prevPos ∧ inBnd m it.pos := by
  simp only [expand_edges] at h
  rw [List.mem_filterMap] at h
  obtain ⟨i, hi, hf⟩ := h
  rw [List.mem_range] at hi
  split at hf
  · exact absurd hf (by simp)
  · rename_i hmask
    split at hf
    · exact absurd hf (by simp)
    · rename_i hb
      split at hf
      · exact absurd hf (by simp)
      · split at hf
        · exact absurd hf (by simp)
        · rename_i hne hst
          obtain rfl := Option.some.inj hf
          have hgnp : get_neighboring_pos data.pos (m.w, m.h) i =
              some ((((data.pos.1 : Int) + (rimOff i).1).toNat,
                     ((data.pos.2 : Int) + (rimOff i).2).toNat)) :=
            (gnp_char _ _ _ _).mpr ⟨hb, rfl⟩
          refine ⟨rfl, rfl, ⟨i, hi, hgnp, ?_⟩, ?_, hne, ?_⟩
          · cases hm2 : (get_visit_mask m data.pos).getD i false
            · exact absurd hm2 hmask
            · rfl
          · simpa using hst
          · push_neg at hb
            obtain ⟨h1, h2, h3, h4⟩ := hb
            constructor <;> simp only [] <;> omega

/-- Completeness of the tracer's neighbor expansion: every still-Unvisited
masked neighbor other than the predecessor is enqueued. -/
theorem expand_edges_complete (m : Mask) (data : BfsData) (em : EMap) (q : Pos)
    (ha : maskAdj m data.pos q) (hne : q ≠ data.prevPos)
    (hu : (em q).cellState = .Unvisited) :
    ∃ it ∈ expand_edges m data em, it.pos = q := by
  obtain ⟨i, hi, hg, hm⟩ := ha
  refine ⟨⟨data.rootNode, q, data.pos⟩, ?_, rfl⟩
  simp only [expand_edges]
  rw [List.mem_filterMap]
  refine ⟨i, List.mem_range.mpr hi, ?_⟩
  obtain ⟨hb, hqe⟩ := (gnp_char _ _ _ _).mp hg
  rw [if_neg (by rw [hm]; simp), if_neg hb]
  rw [if_neg (by rw [← hqe]; exact hne)]
  rw [if_neg (by rw [← hqe]; simp [hu])]
  rw [← hqe]

/-- The expansion enqueues at most 8 visits. -/
theorem expand_edges_len (m : Mask) (data : BfsData) (em : EMap) :
    (expand_edges m data em).length ≤ 8 := by
  simp only [expand_edges]
  calc ((List.range 8).filterMap _).length ≤ (List.range 8).length :=
        List.length_filterMap_le _ _
    _ = 8 := by simp

/-- The loop invariant of `find_edges`: Unvisited cells are untouched
(self-predecessor), claimed cells are in bounds with a valid root and a
predecessor chain of claimed cells reaching an origin within the claimed
count, queued visits are in bounds with valid roots and claimed (or self)
predecessors, and every masked neighbor of a claimed cell is claimed or
queued. -/
structure EdgeInv (m : Mask) (s : EState) : Prop where
  prevSelf : ∀ p, (s.emap p).cellState = .Unvisited → (s.emap p).prevPos = p
  covIn : ∀ p, covered s.emap p → inBnd m p
  rootSome : ∀ p, covered s.emap p →
    ∃ r, (s.emap p).rootNode = some r ∧ r < s.graph.nodes.length
  prevCov : ∀ p, covered s.emap p → covered s.emap ((s.emap p).prevPos)
  chain : ∀ p, covered s.emap p → Reaches s.emap p (visited_count m s.emap)
  items : ∀ it ∈ s.queue, inBnd m it.pos ∧ it.rootNode < s.graph.nodes.length ∧
    (it.prevPos = it.pos ∨ covered s.emap it.prevPos)
  adj : ∀ p q, covered s.emap p → maskAdj m p q →
    covered s.emap q ∨ ∃ it ∈ s.queue, it.pos = q

/-- The initial tracer state satisfies the invariant whenever the seeded
origins are in-bounds self-predecessor visits with valid roots — which is
exactly the shape of the frontier origins of the data model. -/
theorem edge_inv_init (m : Mask) (g : TGraph) (origins : List BfsData)
    (ho : ∀ o ∈ origins, inBnd m o.pos ∧ o.prevPos = o.pos ∧
      o.rootNode < g.nodes.length) :
    EdgeInv m ⟨g, initEMap, origins⟩ := by
  have hnc : ∀ p, ¬ covered initEMap p := by
    intro p hc
    exact hc rfl
  refine ⟨?_, ?_, ?_, ?_, ?_, ?_, ?_⟩
  · intro p _
    rfl
  · intro p hc
    exact absurd hc (hnc p)
  · intro p hc
    exact absurd hc (hnc p)
  · intro p hc
    exact absurd hc (hnc p)
  · intro p hc
    exact absurd hc (hnc p)
  · intro it hit
    obtain ⟨h1, h2, h3⟩ := ho it hit
    exact ⟨h1, h3, Or.inl h2⟩
  · intro p q hc
    exact absurd hc (hnc p)

/-- Updating an unclaimed cell preserves the chains of claimed cells. -/
theorem reaches_setCell_uncov (em : EMap) (p0 : Pos) (d : ExplorationData)
    (hu : ¬ covered em p0)
    (hpc : ∀ q, covered em q → covered em ((em q).prevPos)) :
    ∀ p k, covered em p → Reaches em p k → Reaches (setCell em p0 d) p k := by
  intro p k hcov hr
  induction hr with
  | self p k hs =>
      refine Reaches.self p k ?_
      have hne : p ≠ p0 := fun he => hu (he ▸ hcov)
      rw [setCell_other _ _ _ _ hne]
      exact hs
  | step p k hs hr2 ih =>
      have hne : p ≠ p0 := fun he => hu (he ▸ hcov)
      refine Reaches.step p k ?_ ?_
      · rw [setCell_other _ _ _ _ hne]
        exact hs
      · rw [setCell_other _ _ _ _ hne]
        exact ih (hpc p hcov)

/-- Popping a visit whose cell stays claimed, while changing the map by a
`MergedOnly` step and the graph by an edge-only change, preserves the
invariant. -/
theorem edge_inv_mergedOnly (m : Mask) (g g2 : TGraph) (em em2 : EMap)
    (data : BfsData) (rest : List BfsData)
    (hi : EdgeInv m ⟨g, em, data :: rest⟩)
    (hmo : MergedOnly em em2)
    (hnodes : g2.nodes = g.nodes)
    (hcovpos : covered em2 data.pos) :
    EdgeInv m ⟨g2, em2, rest⟩ := by
  have hciff : ∀ p, covered em2 p ↔ covered em p :=
    fun p => hmo.covered_iff hi.prevSelf p
  refine ⟨?_, ?_, ?_, ?_, ?_, ?_, ?_⟩
  · intro p hp
    have hcov : ¬ covered em2 p := fun hc => hc hp
    have hcov2 : ¬ covered em p := fun hc => hcov ((hciff p).mpr hc)
    have hpU : (em p).cellState = .Unvisited := by
      by_contra hc
      exact hcov2 hc
    rw [hmo.prev p]
    exact hi.prevSelf p hpU
  · intro p hc
    exact hi.covIn p ((hciff p).mp hc)
  · intro p hc
    obtain ⟨r, hr, hrl⟩ := hi.rootSome p ((hciff p).mp hc)
    refine ⟨r, ?_, ?_⟩
    · rw [hmo.root p]
      exact hr
    · simp only [hnodes]
      exact hrl
  · intro p hc
    rw [hmo.prev p, hciff]
    exact hi.prevCov p ((hciff p).mp hc)
  · intro p hc
    have hvc : visited_count m em2 = visited_count m em :=
      (mergedOnly_counts m em em2 hmo hi.prevSelf).2
    rw [hvc]
    exact reaches_congr_all em em2 (fun q => hmo.prev q) p _
      (hi.chain p ((hciff p).mp hc))
  · intro it hit
    obtain ⟨h1, h2, h3⟩ := hi.items it (List.mem_cons_of_mem _ hit)
    refine ⟨h1, by simp only [hnodes]; exact h2, ?_⟩
    rcases h3 with h3 | h3
    · exact Or.inl h3
    · exact Or.inr ((hciff _).mpr h3)
  · intro p q hc ha
    rcases hi.adj p q ((hciff p).mp hc) ha with hq | ⟨it, hit, hpos⟩
    · exact Or.inl ((hciff q).mpr hq)
    · rcases List.mem_cons.mp hit with rfl | hit2
      · exact Or.inl (hpos ▸ hcovpos)
      · exact Or.inr ⟨it, hit2, hpos⟩

/-- Claiming the popped Unvisited cell and enqueuing its masked expansion
preserves the invariant. -/
theorem edge_inv_unvisited (m : Mask) (g : TGraph) (em : EMap)
    (data : BfsData) (rest : List BfsData)
    (hi : EdgeInv m ⟨g, em, data :: rest⟩)
    (hu : (em data.pos).cellState = .Unvisited) :
    EdgeInv m ⟨g,
      setCell em data.pos ⟨.Visited, some data.rootNode, data.pos, data.prevPos⟩,
      rest ++ expand_edges m data
        (setCell em data.pos ⟨.Visited, some data.rootNode, data.pos, data.prevPos⟩)⟩ := by
  set pos := data.pos with hposdef
  set em2 := setCell em pos ⟨.Visited, some data.rootNode, pos, data.prevPos⟩ with hem2
  obtain ⟨hinb, hrootlt, hprevd⟩ := hi.items data (List.mem_cons_self _ _)
  have hposU : ¬ covered em pos := fun hc => hc hu
  have hcov2 : ∀ p, covered em2 p ↔ (covered em p ∨ p = pos) := by
    intro p
    by_cases hp : p = pos
    · subst hp
      rw [covered, hem2, setCell_same]
      simp [covered]
    · rw [covered, hem2, setCell_other _ _ _ _ hp, ← covered]
      simp [hp]
  have hprev2 : ∀ p, p ≠ pos → (em2 p).prevPos = (em p).prevPos := by
    intro p hp
    rw [hem2, setCell_other _ _ _ _ hp]
  have hroot2 : ∀ p, p ≠ pos → (em2 p).rootNode = (em p).rootNode := by
    intro p hp
    rw [hem2, setCell_other _ _ _ _ hp]
  have hcovne : ∀ p, covered em p → p ≠ pos := by
    intro p hc he
    exact hposU (he ▸ hc)
  refine ⟨?_, ?_, ?_, ?_, ?_, ?_, ?_⟩ <;> dsimp only
  · intro p hp
    by_cases hpp : p = pos
    · subst hpp
      rw [hem2, setCell_same] at hp
      exact absurd hp (by simp)
    · rw [hprev2 p hpp]
      rw [hem2, setCell_other _ _ _ _ hpp] at hp
      exact hi.prevSelf p hp
  · intro p hc
    rcases (hcov2 p).mp hc with hc2 | rfl
    · exact hi.covIn p hc2
    · exact hinb
  · intro p hc
    rcases (hcov2 p).mp hc with hc2 | rfl
    · obtain ⟨r, hr, hrl⟩ := hi.rootSome p hc2
      exact ⟨r, by rw [hroot2 p (hcovne p hc2)]; exact hr, hrl⟩
    · refine ⟨data.rootNode, ?_, hrootlt⟩
      rw [hem2, setCell_same]
  · intro p hc
    rcases (hcov2 p).mp hc with hc2 | rfl
    · rw [hprev2 p (hcovne p hc2)]
      have := hi.prevCov p hc2
      rw [hcov2]
      exact Or.inl this
    · have hprevpos : (em2 pos).prevPos = data.prevPos := by
        rw [hem2, setCell_same]
      rw [hprevpos, hcov2]
      rcases hprevd with hd | hd
      · right
        rw [hd]
      · exact Or.inl hd
  · intro p hc
    have hchain : ∀ q, covered em q → Reaches em q (visited_count m em) :=
      fun q hq => hi.chain q hq
    have hprevc : ∀ q, covered em q → covered em ((em q).prevPos) :=
      fun q hq => hi.prevCov q hq
    have hvc := (counts_setCell m em pos
      ⟨.Visited, some data.rootNode, pos, data.prevPos⟩ hinb hu (by simp)).1
    rw [← hem2] at hvc
    rw [hvc]
    rcases (hcov2 p).mp hc with hc2 | rfl
    · exact (reaches_setCell_uncov em pos _ hposU hprevc p _ hc2
        (hchain p hc2)).mono (by omega)
    · rcases hprevd with hd | hd
      · refine Reaches.self pos _ ?_
        rw [hem2, setCell_same]
        exact hd
      · have hdne : data.prevPos ≠ pos := hcovne _ hd
        refine Reaches.step pos (visited_count m em) ?_ ?_
        · rw [hem2, setCell_same]
          simp only []
          exact hdne
        · have hrp : Reaches em2 data.prevPos (visited_count m em) :=
            reaches_setCell_uncov em pos _ hposU hprevc _ _ hd (hchain _ hd)
          have heq : (em2 pos).prevPos = data.prevPos := by
            rw [hem2, setCell_same]
          rw [heq]
          exact hrp
  · intro it hit
    rcases List.mem_append.mp hit with hit2 | hit2
    · obtain ⟨h1, h2, h3⟩ := hi.items it (List.mem_cons_of_mem _ hit2)
      refine ⟨h1, h2, ?_⟩
      rcases h3 with h3 | h3
      · exact Or.inl h3
      · right
        rw [hcov2]
        exact Or.inl h3
    · obtain ⟨h1, h2, h3, h4, h5, h6⟩ := expand_edges_mem m data em2 it hit2
      refine ⟨h6, by rw [h1]; exact hrootlt, ?_⟩
      right
      rw [h2, hcov2]
      exact Or.inr rfl
  · intro p q hc ha
    rcases (hcov2 p).mp hc with hc2 | rfl
    · rcases hi.adj p q hc2 ha with hq | ⟨it, hit, hpos2⟩
      · left
        rw [hcov2]
        exact Or.inl hq
      · rcases List.mem_cons.mp hit with rfl | hit2
        · left
          rw [← hpos2, hcov2]
          exact Or.inr hposdef.symm
        · exact Or.inr ⟨it, List.mem_append.mpr (Or.inl hit2), hpos2⟩
    · by_cases hq : covered em2 q
      · exact Or.inl hq
      · have hq2 : (em2 q).cellState = .Unvisited := by
          by_contra hc2
          exact hq hc2
        have hqnp : q ≠ data.prevPos := by
          intro he
          rcases hprevd with hd | hd
          · subst he
            rw [hd] at hq2
            rw [hem2, setCell_same] at hq2
            exact absurd hq2 (by simp)
          · refine hq ?_
            rw [he, hcov2]
            exact Or.inl hd
        obtain ⟨it, hit, hpos2⟩ := expand_edges_complete m data em2 q ha hqnp hq2
        exact Or.inr ⟨it, List.mem_append.mpr (Or.inr hit), hpos2⟩

/-- Under the invariant, a collision merge always succeeds: both walk
starts are claimed cells, so their roots are present and their predecessor
chains reach origins within the walk fuel, and both roots are valid node
ids for `add_edge`. -/
theorem merge_preserves (m : Mask) (g : TGraph) (em : EMap) (queue : List BfsData)
    (hi : EdgeInv m ⟨g, em, queue⟩)
    (tp op : Pos) (htp : covered em tp) (hop : covered em op) :
    ∃ g2 em2, merge_and_add_edge g em (m.w * m.h + 1) tp op = some (g2, em2) ∧
      g2.nodes = g.nodes ∧ MergedOnly em em2 := by
  obtain ⟨tr, htr, htrlt⟩ := hi.rootSome tp htp
  obtain ⟨orr, horr, horrlt⟩ := hi.rootSome op hop
  have htrlt2 : tr < g.nodes.length := htrlt
  have horrlt2 : orr < g.nodes.length := horrlt
  have hch1 : Reaches em tp (visited_count m em) := hi.chain tp htp
  have hch2 : Reaches em op (visited_count m em) := hi.chain op hop
  have hvcle := visited_count_le m em
  obtain ⟨em1, l1, hw1⟩ :=
    walk_back_some (m.w * m.h + 1) em tp _ hch1 (by omega)
  have hmo1 : MergedOnly em em1 := walk_back_mergedOnly _ _ _ _ _ hw1
  have hch2b : Reaches em1 op (visited_count m em) :=
    reaches_congr_all em em1 (fun q => hmo1.prev q) _ _ hch2
  obtain ⟨em2, l2, hw2⟩ :=
    walk_back_some (m.w * m.h + 1) em1 op _ hch2b (by omega)
  have hmo2 : MergedOnly em1 em2 := walk_back_mergedOnly _ _ _ _ _ hw2
  have hroot1 : (em1 op).rootNode = some orr := by
    rw [hmo1.root op]
    exact horr
  have hcond : (if tr < orr then tr else orr) < g.nodes.length ∧
      (if tr < orr then orr else tr) < g.nodes.length := by
    constructor <;> split <;> omega
  refine ⟨⟨g.nodes, g.edges ++
      [((if tr < orr then tr else orr), (if tr < orr then orr else tr),
        ⟨if tr < orr then l1.reverse ++ l2 else (l1.reverse ++ l2).reverse⟩)]⟩,
    em2, ?_, rfl, hmo1.trans hmo2⟩
  simp only [merge_and_add_edge, Option.bind_eq_bind, Option.bind_eq_some]
  refine ⟨tr, htr, (em1, l1), hw1, orr, hroot1, (em2, l2), hw2, _, ?_, rfl⟩
  unfold TGraph.add_edge
  rw [if_pos hcond]

/-- Order of the tracer's cell states along the allowed transitions. -/
def stateRank : CellState → Nat
  | .Unvisited => 0
  | .Visited => 1
  | .Merged => 2

/-- One iteration of the `find_edges` loop on a nonempty queue: it never
fails, preserves the invariant, strictly decreases the loop potential,
never touches the node list, never unclaims a cell, and changes a cell
state only from Unvisited to Visited or from Visited to Merged. -/
theorem find_edges_step_spec (m : Mask) (g : TGraph) (em : EMap)
    (data : BfsData) (rest : List BfsData)
    (hi : EdgeInv m ⟨g, em, data :: rest⟩) :
    ∃ s2, find_edges_step m ⟨g, em, data :: rest⟩ = some s2 ∧ EdgeInv m s2 ∧
      phi m s2 < phi m ⟨g, em, data :: rest⟩ ∧
      s2.graph.nodes = g.nodes ∧
      (∀ p, covered em p → covered s2.emap p) ∧
      (∀ p, (s2.emap p).cellState ≠ (em p).cellState →
        ((s2.emap p).cellState = .Visited ∧ (em p).cellState = .Unvisited) ∨
        ((s2.emap p).cellState = .Merged ∧ (em p).cellState = .Visited)) ∧
      (∃ tail, s2.queue = rest ++ tail) ∧
      covered s2.emap data.pos := by
  obtain ⟨hinb, hrootlt, hprevd⟩ := hi.items data (List.mem_cons_self _ _)
  have hinb2 : data.pos.1 < m.w ∧ data.pos.2 < m.h := hinb
  cases hst : (em data.pos).cellState
  · -- Unvisited: claim the cell and expand
    set em2 := setCell em data.pos
      ⟨.Visited, some data.rootNode, data.pos, data.prevPos⟩ with hem2
    refine ⟨⟨g, em2, rest ++ expand_edges m data em2⟩, ?_, ?_, ?_, rfl, ?_, ?_, ⟨_, rfl⟩, ?_⟩
    all_goals dsimp only
    · simp only [find_edges_step]
      rw [if_pos hinb2, hst]
    · exact edge_inv_unvisited m g em data rest hi hst
    · have hcnt := (counts_setCell m em data.pos
        ⟨.Visited, some data.rootNode, data.pos, data.prevPos⟩ hinb hst (by simp)).2
      rw [← hem2] at hcnt
      have hlen := expand_edges_len m data em2
      simp only [phi, List.length_cons, List.length_append]
      omega
    · intro p hp
      by_cases hpp : p = data.pos
      · subst hpp
        unfold covered
        rw [hem2, setCell_same]
        simp
      · unfold covered
        rw [hem2, setCell_other _ _ _ _ hpp]
        exact hp
    · intro p hch
      by_cases hpp : p = data.pos
      · subst hpp
        rw [hem2, setCell_same] at hch ⊢
        exact Or.inl ⟨rfl, hst⟩
      · rw [hem2, setCell_other _ _ _ _ hpp] at hch
        exact absurd rfl hch
    · unfold covered
      rw [hem2, setCell_same]
      simp
  · -- Visited: collision, merge and emit an edge
    have hcovpos : covered em data.pos := by
      unfold covered
      rw [hst]
      simp
    have hcovprev : covered em data.prevPos := by
      rcases hprevd with hd | hd
      · rw [hd]
        exact hcovpos
      · exact hd
    obtain ⟨g2, em2, hmerge, hnodes, hmo⟩ :=
      merge_preserves m g em (data :: rest) hi data.prevPos data.pos hcovprev hcovpos
    refine ⟨⟨g2, em2, rest⟩, ?_, ?_, ?_, hnodes, ?_, ?_, ⟨[], by simp⟩, ?_⟩
    all_goals dsimp only
    · simp only [find_edges_step]
      rw [if_pos hinb2, hst, hmerge]
    · exact edge_inv_mergedOnly m g g2 em em2 data rest hi hmo hnodes
        ((hmo.covered_iff hi.prevSelf data.pos).mpr hcovpos)
    · have hcnt := (mergedOnly_counts m em em2 hmo hi.prevSelf).1
      simp only [phi, List.length_cons]
      omega
    · intro p hp
      exact (hmo.covered_iff hi.prevSelf p).mpr hp
    · intro p hch
      rcases hmo p with hp | ⟨hp, hne⟩
      · rw [hp] at hch
        exact absurd rfl hch
      · rw [hp] at hch ⊢
        simp only at hch ⊢
        have hpn : (em p).cellState ≠ .Unvisited := by
          intro hc
          exact hne (hi.prevSelf p hc)
        cases hc : (em p).cellState
        · exact absurd hc hpn
        · exact Or.inr ⟨by simp, rfl⟩
        · rw [hc] at hch
          exact absurd rfl hch
    · exact (hmo.covered_iff hi.prevSelf data.pos).mpr hcovpos
  · -- Merged: discard the visit
    refine ⟨⟨g, em, rest⟩, ?_, ?_, ?_, rfl, ?_, ?_, ⟨[], by simp⟩, ?_⟩
    all_goals dsimp only
    · simp only [find_edges_step]
      rw [if_pos hinb2, hst]
    · refine edge_inv_mergedOnly m g g em em data rest hi (MergedOnly.refl em) rfl ?_
      unfold covered
      rw [hst]
      simp
    · simp only [phi, List.length_cons]
      omega
    · intro p hp
      exact hp
    · intro p hch
      exact absurd rfl hch
    · unfold covered
      rw [hst]
      simp

/-- The `find_edges` work loop drains the queue within any fuel exceeding
the loop potential, preserving the invariant, the node list and every
claimed cell. -/
theorem find_edges_loop_ok (m : Mask) : ∀ fuel : Nat, ∀ s : EState,
    EdgeInv m s → phi m s < fuel →
    ∃ s2, find_edges_loop m fuel s = some s2 ∧ EdgeInv m s2 ∧ s2.queue = [] ∧
      s2.graph.nodes = s.graph.nodes ∧
      (∀ p, covered s.emap p → covered s2.emap p) := by
  intro fuel
  induction fuel with
  | zero => intro s _ hp; omega
  | succ fuel ih =>
      intro s hi hp
      obtain ⟨g, em, queue⟩ := s
      cases hq : queue with
      | nil =>
          subst hq
          exact ⟨⟨g, em, []⟩, rfl, hi, rfl, rfl, fun p hc => hc⟩
      | cons data rest =>
          subst hq
          obtain ⟨s2, hstep, hi2, hphi, hnodes, hcov, -, -, -⟩ :=
            find_edges_step_spec m g em data rest hi
          obtain ⟨s3, hloop, hi3, hq3, hnodes3, hcov3⟩ :=
            ih s2 hi2 (by omega)
          refine ⟨s3, ?_, hi3, hq3, by rw [hnodes3, hnodes], fun p hc => hcov3 p (hcov p hc)⟩
          rw [find_edges_loop]
          simp only []
          rw [hstep]
          exact hloop

/-- The unvisited count never exceeds the number of grid cells. -/
theorem unvisited_count_le (m : Mask) (em : EMap) :
    unvisited_count m em ≤ m.w * m.h := by
  calc unvisited_count m em ≤ (scanPixels m.w m.h).length := List.countP_le_length _
    _ = m.w * m.h := scanPixels_length m.w m.h

/-- C8: for every finite mask and every finite list of frontier origins
(in-bounds, self-predecessor, valid root — the shape the data model gives
frontier origins and the shape `find_nodes` produces), the `find_edges`
work loop terminates: the canonical fuel of `find_edges` drains the queue.
Moreover each loop iteration moves every cell state only forward along
Unvisited, Visited, Merged: a state change to Visited happens only from
Unvisited, a state change to Merged only from Visited (re-marking a Merged
cell is not a change), and no change lowers the state rank. -/
theorem C8_termination_monotone :
    (∀ m : Mask, ∀ g : TGraph, ∀ origins : List BfsData,
      (∀ o ∈ origins, inBnd m o.pos ∧ o.prevPos = o.pos ∧
        o.rootNode < g.nodes.length) →
      ∃ s2 : EState, find_edges m g origins = some s2 ∧ s2.queue = []) ∧
    (∀ m : Mask, ∀ s s2 : EState, EdgeInv m s →
      find_edges_step m s = some s2 → ∀ p : Pos,
      stateRank ((s.emap p).cellState) ≤ stateRank ((s2.emap p).cellState) ∧
      ((s2.emap p).cellState ≠ (s.emap p).cellState →
        ((s2.emap p).cellState = .Visited ∧ (s.emap p).cellState = .Unvisited) ∨
        ((s2.emap p).cellState = .Merged ∧ (s.emap p).cellState = .Visited))) := by
  constructor
  · intro m g origins ho
    have hi := edge_inv_init m g origins ho
    have hucle := unvisited_count_le m initEMap
    have hphi : phi m ⟨g, initEMap, origins⟩ < 8 * m.w * m.h + origins.length + 1 := by
      simp only [phi]
      have h8 : 8 * m.w * m.h = 8 * (m.w * m.h) := by ring
      rw [h8]
      omega
    obtain ⟨s2, hloop, -, hq2, -, -⟩ :=
      find_edges_loop_ok m (8 * m.w * m.h + origins.length + 1)
        ⟨g, initEMap, origins⟩ hi hphi
    exact ⟨s2, hloop, hq2⟩
  · intro m s s2 hi hstep p
    obtain ⟨g, em, queue⟩ := s
    cases hq : queue with
    | nil =>
        subst hq
        obtain rfl : (⟨g, em, []⟩ : EState) = s2 := Option.some.inj hstep
        exact ⟨Nat.le_refl _, fun hc => absurd rfl hc⟩
    | cons data rest =>
        subst hq
        obtain ⟨s2b, hstep2, -, -, -, -, htrans, -, -⟩ :=
          find_edges_step_spec m g em data rest hi
        obtain rfl : s2b = s2 := by
          rw [hstep2] at hstep
          exact Option.some.inj hstep
        refine ⟨?_, htrans p⟩
        by_cases hch : (s2b.emap p).cellState = (em p).cellState
        · rw [hch]
        · rcases htrans p hch with ⟨h1, h2⟩ | ⟨h1, h2⟩ <;>
            rw [h1, h2] <;> simp [stateRank]

/-- A one-pixel mask with one Endpoint node and its frontier origin. -/
def oneMask : Mask := ⟨1, 1, fun _ _ => true⟩

/-- The one-node graph for the one-pixel mask. -/
def oneGraph : TGraph := ⟨[⟨.Endpoint, (0, 0)⟩], []⟩

/-- The single frontier origin on the one-pixel mask. -/
def oneOrigins : List BfsData := [⟨0, (0, 0), (0, 0)⟩]

/-- Witness for `C8_termination_monotone` on the one-pixel instance. -/
theorem C8_termination_monotone_witness :
    (find_edges oneMask oneGraph oneOrigins).isSome = true ∧
    stateRank ((initEMap (0, 0)).cellState) ≤ 2 := by
  obtain ⟨s2, hsome, -⟩ :=
    C8_termination_monotone.1 oneMask oneGraph oneOrigins (by decide)
  constructor
  · rw [hsome]
    rfl
  · have hs : (find_edges_step oneMask ⟨oneGraph, initEMap, oneOrigins⟩).isSome = true := rfl
    obtain ⟨s3, hstep⟩ := Option.isSome_iff_exists.mp hs
    have h2 := C8_termination_monotone.2 oneMask ⟨oneGraph, initEMap, oneOrigins⟩ s3
      (edge_inv_init oneMask oneGraph oneOrigins (by decide)) hstep (0, 0)
    exact le_trans h2.1 (by cases hc : (s3.emap (0, 0)).cellState <;> simp [stateRank, hc])

/-- A bounded number of iterations of the `find_edges` loop body, exposing
every intermediate state of the run. -/
def find_edges_iter (m : Mask) : Nat → EState → Option EState
  | 0, s => some s
  | n + 1, s =>
      match s.queue with
      | [] => some s
      | _ :: _ =>
          match find_edges_step m s with
          | some s2 => find_edges_iter m n s2
          | none => none

/-- The invariant holds at every state reached by the loop. -/
theorem find_edges_iter_inv (m : Mask) :
    ∀ n : Nat, ∀ s s2 : EState, EdgeInv m s →
    find_edges_iter m n s = some s2 → EdgeInv m s2 := by
  intro n
  induction n with
  | zero =>
      intro s s2 hi h
      obtain rfl := Option.some.inj h
      exact hi
  | succ n ih =>
      intro s s2 hi h
      obtain ⟨g, em, queue⟩ := s
      cases hq : queue with
      | nil =>
          subst hq
          obtain rfl := Option.some.inj h
          exact hi
      | cons data rest =>
          subst hq
          obtain ⟨s2b, hstep, hi2, -, -, -, -, -, -⟩ :=
            find_edges_step_spec m g em data rest hi
          rw [find_edges_iter] at h
          simp only at h
          rw [hstep] at h
          exact ih s2b s2 hi2 h

/-- C10: throughout `find_edges` (at every state reachable from a queue
seeded with frontier origins), the predecessor links of claimed cells form
an acyclic forest: the chain from any Visited or Merged pixel stays inside
claimed cells and reaches, in finitely many steps (witnessed by the
`Reaches` derivation), a self-predecessor origin cell, and every claimed
cell carries a present root id.  Consequently the next loop iteration —
including both backward walks and the `unwrap` of the two roots inside
`merge_and_add_edge` — never fails. -/
theorem C10_prev_chains (m : Mask) (g : TGraph) (origins : List BfsData)
    (ho : ∀ o ∈ origins, inBnd m o.pos ∧ o.prevPos = o.pos ∧
      o.rootNode < g.nodes.length)
    (n : Nat) (s2 : EState)
    (h : find_edges_iter m n ⟨g, initEMap, origins⟩ = some s2) :
    (∀ p, covered s2.emap p →
      covered s2.emap ((s2.emap p).prevPos) ∧
      Reaches s2.emap p (visited_count m s2.emap) ∧
      ∃ r, (s2.emap p).rootNode = some r) ∧
    (s2.queue ≠ [] → (find_edges_step m s2).isSome = true) := by
  have hi2 := find_edges_iter_inv m n ⟨g, initEMap, origins⟩ s2
    (edge_inv_init m g origins ho) h
  constructor
  · intro p hc
    obtain ⟨r, hr, -⟩ := hi2.rootSome p hc
    exact ⟨hi2.prevCov p hc, hi2.chain p hc, r, hr⟩
  · intro hq
    obtain ⟨g2, em2, queue2⟩ := s2
    cases hqq : queue2 with
    | nil => exact absurd hqq hq
    | cons data rest =>
        subst hqq
        obtain ⟨s3, hstep, -, -, -, -, -, -, -⟩ :=
          find_edges_step_spec m g2 em2 data rest hi2
        rw [hstep]
        rfl

/-- Witness for `C10_prev_chains` at the one-pixel instance. -/
theorem C10_prev_chains_witness :
    (find_edges_step oneMask ⟨oneGraph, initEMap, oneOrigins⟩).isSome = true := by
  have h := C10_prev_chains oneMask oneGraph oneOrigins (by decide) 0
    ⟨oneGraph, initEMap, oneOrigins⟩ rfl
  exact h.2 (by simp [oneOrigins])

/-- 8-adjacency between two in-bounds foreground pixels. -/
def adj8 (m : Mask) (p q : Pos) : Prop :=
  inBnd m p ∧ m.fg p.1 p.2 = true ∧ m.fg q.1 q.2 = true ∧
  ∃ i, i < 8 ∧ get_neighboring_pos p (m.w, m.h) i = some q

/-- 8-connectivity of foreground pixels. -/
def Conn8 (m : Mask) : Pos → Pos → Prop := Relation.ReflTransGen (adj8 m)

/-- Connectivity along masked tracer steps. -/
def ConnM (m : Mask) : Pos → Pos → Prop := Relation.ReflTransGen (maskAdj m)

/-- Building a successful neighbor computation from integer coordinates. -/
theorem gnp_of_coords (p dim : Pos) (i : Nat) (q : Pos)
    (h1 : (q.1 : Int) = (p.1 : Int) + (rimOff i).1)
    (h2 : (q.2 : Int) = (p.2 : Int) + (rimOff i).2)
    (h3 : q.1 < dim.1) (h4 : q.2 < dim.2) :
    get_neighboring_pos p dim i = some q := by
  apply (gnp_char p dim i q).mpr
  constructor
  · push_neg
    refine ⟨?_, ?_, ?_, ?_⟩ <;> omega
  · obtain ⟨q1, q2⟩ := q
    simp only [Prod.mk.injEq]
    constructor <;> omega

/-- 8-adjacency is symmetric: the reverse step uses the opposite rim
index. -/
theorem adj8_symm (m : Mask) : ∀ p q : Pos, adj8 m p q → adj8 m q p := by
  intro p q ⟨hin, hfp, hfq, i, hi, hg⟩
  obtain ⟨h1, h2, h3, h4⟩ := gnp_coords p (m.w, m.h) i q hg
  refine ⟨⟨h3, h4⟩, hfq, hfp, (i + 4) % 8, Nat.mod_lt _ (by norm_num), ?_⟩
  apply gnp_of_coords q (m.w, m.h) ((i + 4) % 8) p ?_ ?_ hin.1 hin.2
  · interval_cases i <;>
      simp only [rim0x, rim1x, rim2x, rim3x, rim4x, rim5x, rim6x, rim7x] at h1 ⊢ <;>
      norm_num <;>
      simp only [rim0x, rim1x, rim2x, rim3x, rim4x, rim5x, rim6x, rim7x] <;>
      omega
  · interval_cases i <;>
      simp only [rim0y, rim1y, rim2y, rim3y, rim4y, rim5y, rim6y, rim7y] at h2 ⊢ <;>
      norm_num <;>
      simp only [rim0y, rim1y, rim2y, rim3y, rim4y, rim5y, rim6y, rim7y] <;>
      omega

/-- An in-bounds foreground orthogonal neighbor is always a masked step. -/
theorem maskAdj_orth (m : Mask) (p o : Pos) (j : Nat)
    (hj : j = 0 ∨ j = 2 ∨ j = 4 ∨ j = 6)
    (hg : get_neighboring_pos p (m.w, m.h) j = some o)
    (hf : m.fg o.1 o.2 = true) : maskAdj m p o := by
  have hb : nbr_fg m p j = true := (nbr_fg_iff m p j).mpr ⟨o, hg, hf⟩
  refine ⟨j, by omega, hg, ?_⟩
  rcases hj with rfl | rfl | rfl | rfl
  · have h2 := mask_even m p 0 (by norm_num)
    rw [(by norm_num : (2 : Nat) * 0 = 0)] at h2
    rw [h2]
    exact hb
  · have h2 := mask_even m p 1 (by norm_num)
    rw [(by norm_num : (2 : Nat) * 1 = 2)] at h2
    rw [h2]
    exact hb
  · have h2 := mask_even m p 2 (by norm_num)
    rw [(by norm_num : (2 : Nat) * 2 = 4)] at h2
    rw [h2]
    exact hb
  · have h2 := mask_even m p 3 (by norm_num)
    rw [(by norm_num : (2 : Nat) * 3 = 6)] at h2
    rw [h2]
    exact hb

/-- Any 8-adjacency between foreground pixels is realized by one or two
masked tracer steps: a surviving entry directly, a cleared diagonal via
the foreground flanking orthogonal neighbor. -/
theorem adj8_connM (m : Mask) (p q : Pos) (h : adj8 m p q) : ConnM m p q := by
  obtain ⟨hin, hfp, hfq, i, hi, hg⟩ := h
  have hnb : nbr_fg m p i = true := (nbr_fg_iff m p i).mpr ⟨q, hg, hfq⟩
  cases hmask : (get_visit_mask m p).getD i false with
  | true => exact Relation.ReflTransGen.single ⟨i, hi, hg, hmask⟩
  | false =>
  have hodd : i = 1 ∨ i = 3 ∨ i = 5 ∨ i = 7 := by
    interval_cases i
    · have h2 := mask_even m p 0 (by norm_num)
      rw [(by norm_num : (2 : Nat) * 0 = 0)] at h2
      rw [h2, hnb] at hmask
      exact absurd hmask (by simp)
    · exact Or.inl rfl
    · have h2 := mask_even m p 1 (by norm_num)
      rw [(by norm_num : (2 : Nat) * 1 = 2)] at h2
      rw [h2, hnb] at hmask
      exact absurd hmask (by simp)
    · exact Or.inr (Or.inl rfl)
    · have h2 := mask_even m p 2 (by norm_num)
      rw [(by norm_num : (2 : Nat) * 2 = 4)] at h2
      rw [h2, hnb] at hmask
      exact absurd hmask (by simp)
    · exact Or.inr (Or.inr (Or.inl rfl))
    · have h2 := mask_even m p 3 (by norm_num)
      rw [(by norm_num : (2 : Nat) * 3 = 6)] at h2
      rw [h2, hnb] at hmask
      exact absurd hmask (by simp)
    · exact Or.inr (Or.inr (Or.inr rfl))
  have hcl := mask_odd_cleared m p i hodd hnb hmask
  rcases hodd with rfl | rfl | rfl | rfl
  · rcases hcl with hflank | hflank
    · obtain ⟨o, hgo, hfo⟩ := (nbr_fg_iff m p 0).mp (by simpa using hflank)
      obtain ⟨co1, co2, co3, co4⟩ := gnp_coords p (m.w, m.h) 0 o hgo
      obtain ⟨cq1, cq2, cq3, cq4⟩ := gnp_coords p (m.w, m.h) 1 q hg
      have hstep1 : maskAdj m p o := maskAdj_orth m p o 0 (by norm_num) hgo hfo
      have hg2 : get_neighboring_pos o (m.w, m.h) 2 = some q := by
        apply gnp_of_coords o (m.w, m.h) 2 q ?_ ?_ cq3 cq4
        · simp only [rim0x, rim1x, rim2x, rim3x, rim4x, rim5x, rim6x, rim7x] at co1 cq1 ⊢
          omega
        · simp only [rim0y, rim1y, rim2y, rim3y, rim4y, rim5y, rim6y, rim7y] at co2 cq2 ⊢
          omega
      have hstep2 : maskAdj m o q := maskAdj_orth m o q 2 (by norm_num) hg2 hfq
      exact Relation.ReflTransGen.head hstep1 (Relation.ReflTransGen.single hstep2)
    · obtain ⟨o, hgo, hfo⟩ := (nbr_fg_iff m p 2).mp (by simpa using hflank)
      obtain ⟨co1, co2, co3, co4⟩ := gnp_coords p (m.w, m.h) 2 o hgo
      obtain ⟨cq1, cq2, cq3, cq4⟩ := gnp_coords p (m.w, m.h) 1 q hg
      have hstep1 : maskAdj m p o := maskAdj_orth m p o 2 (by norm_num) hgo hfo
      have hg2 : get_neighboring_pos o (m.w, m.h) 0 = some q := by
        apply gnp_of_coords o (m.w, m.h) 0 q ?_ ?_ cq3 cq4
        · simp only [rim0x, rim1x, rim2x, rim3x, rim4x, rim5x, rim6x, rim7x] at co1 cq1 ⊢
          omega
        · simp only [rim0y, rim1y, rim2y, rim3y, rim4y, rim5y, rim6y, rim7y] at co2 cq2 ⊢
          omega
      have hstep2 : maskAdj m o q := maskAdj_orth m o q 0 (by norm_num) hg2 hfq
      exact Relation.ReflTransGen.head hstep1 (Relation.ReflTransGen.single hstep2)
  · rcases hcl with hflank | hflank
    · obtain ⟨o, hgo, hfo⟩ := (nbr_fg_iff m p 2).mp (by simpa using hflank)
      obtain ⟨co1, co2, co3, co4⟩ := gnp_coords p (m.w, m.h) 2 o hgo
      obtain ⟨cq1, cq2, cq3, cq4⟩ := gnp_coords p (m.w, m.h) 3 q hg
      have hstep1 : maskAdj m p o := maskAdj_orth m p o 2 (by norm_num) hgo hfo
      have hg2 : get_neighboring_pos o (m.w, m.h) 4 = some q := by
        apply gnp_of_coords o (m.w, m.h) 4 q ?_ ?_ cq3 cq4
        · simp only [rim0x, rim1x, rim2x, rim3x, rim4x, rim5x, rim6x, rim7x] at co1 cq1 ⊢
          omega
        · simp only [rim0y, rim1y, rim2y, rim3y, rim4y, rim5y, rim6y, rim7y] at co2 cq2 ⊢
          omega
      have hstep2 : maskAdj m o q := maskAdj_orth m o q 4 (by norm_num) hg2 hfq
      exact Relation.ReflTransGen.head hstep1 (Relation.ReflTransGen.single hstep2)
    · obtain ⟨o, hgo, hfo⟩ := (nbr_fg_iff m p 4).mp (by simpa using hflank)
      obtain ⟨co1, co2, co3, co4⟩ := gnp_coords p (m.w, m.h) 4 o hgo
      obtain ⟨cq1, cq2, cq3, cq4⟩ := gnp_coords p (m.w, m.h) 3 q hg
      have hstep1 : maskAdj m p o := maskAdj_orth m p o 4 (by norm_num) hgo hfo
      have hg2 : get_neighboring_pos o (m.w, m.h) 2 = some q := by
        apply gnp_of_coords o (m.w, m.h) 2 q ?_ ?_ cq3 cq4
        · simp only [rim0x, rim1x, rim2x, rim3x, rim4x, rim5x, rim6x, rim7x] at co1 cq1 ⊢
          omega
        · simp only [rim0y, rim1y, rim2y, rim3y, rim4y, rim5y, rim6y, rim7y] at co2 cq2 ⊢
          omega
      have hstep2 : maskAdj m o q := maskAdj_orth m o q 2 (by norm_num) hg2 hfq
      exact Relation.ReflTransGen.head hstep1 (Relation.ReflTransGen.single hstep2)
  · rcases hcl with hflank | hflank
    · obtain ⟨o, hgo, hfo⟩ := (nbr_fg_iff m p 4).mp (by simpa using hflank)
      obtain ⟨co1, co2, co3, co4⟩ := gnp_coords p (m.w, m.h) 4 o hgo
      obtain ⟨cq1, cq2, cq3, cq4⟩ := gnp_coords p (m.w, m.h) 5 q hg
      have hstep1 : maskAdj m p o := maskAdj_orth m p o 4 (by norm_num) hgo hfo
      have hg2 : get_neighboring_pos o (m.w, m.h) 6 = some q := by
        apply gnp_of_coords o (m.w, m.h) 6 q ?_ ?_ cq3 cq4
        · simp only [rim0x, rim1x, rim2x, rim3x, rim4x, rim5x, rim6x, rim7x] at co1 cq1 ⊢
          omega
        · simp only [rim0y, rim1y, rim2y, rim3y, rim4y, rim5y, rim6y, rim7y] at co2 cq2 ⊢
          omega
      have hstep2 : maskAdj m o q := maskAdj_orth m o q 6 (by norm_num) hg2 hfq
      exact Relation.ReflTransGen.head hstep1 (Relation.ReflTransGen.single hstep2)
    · obtain ⟨o, hgo, hfo⟩ := (nbr_fg_iff m p 6).mp (by simpa using hflank)
      obtain ⟨co1, co2, co3, co4⟩ := gnp_coords p (m.w, m.h) 6 o hgo
      obtain ⟨cq1, cq2, cq3, cq4⟩ := gnp_coords p (m.w, m.h) 5 q hg
      have hstep1 : maskAdj m p o := maskAdj_orth m p o 6 (by norm_num) hgo hfo
      have hg2 : get_neighboring_pos o (m.w, m.h) 4 = some q := by
        apply gnp_of_coords o (m.w, m.h) 4 q ?_ ?_ cq3 cq4
        · simp only [rim0x, rim1x, rim2x, rim3x, rim4x, rim5x, rim6x, rim7x] at co1 cq1 ⊢
          omega
        · simp only [rim0y, rim1y, rim2y, rim3y, rim4y, rim5y, rim6y, rim7y] at co2 cq2 ⊢
          omega
      have hstep2 : maskAdj m o q := maskAdj_orth m o q 4 (by norm_num) hg2 hfq
      exact Relation.ReflTransGen.head hstep1 (Relation.ReflTransGen.single hstep2)
  · rcases hcl with hflank | hflank
    · obtain ⟨o, hgo, hfo⟩ := (nbr_fg_iff m p 6).mp (by simpa using hflank)
      obtain ⟨co1, co2, co3, co4⟩ := gnp_coords p (m.w, m.h) 6 o hgo
      obtain ⟨cq1, cq2, cq3, cq4⟩ := gnp_coords p (m.w, m.h) 7 q hg
      have hstep1 : maskAdj m p o := maskAdj_orth m p o 6 (by norm_num) hgo hfo
      have hg2 : get_neighboring_pos o (m.w, m.h) 0 = some q := by
        apply gnp_of_coords o (m.w, m.h) 0 q ?_ ?_ cq3 cq4
        · simp only [rim0x, rim1x, rim2x, rim3x, rim4x, rim5x, rim6x, rim7x] at co1 cq1 ⊢
          omega
        · simp only [rim0y, rim1y, rim2y, rim3y, rim4y, rim5y, rim6y, rim7y] at co2 cq2 ⊢
          omega
      have hstep2 : maskAdj m o q := maskAdj_orth m o q 0 (by norm_num) hg2 hfq
      exact Relation.ReflTransGen.head hstep1 (Relation.ReflTransGen.single hstep2)
    · obtain ⟨o, hgo, hfo⟩ := (nbr_fg_iff m p 0).mp (by simpa using hflank)
      obtain ⟨co1, co2, co3, co4⟩ := gnp_coords p (m.w, m.h) 0 o hgo
      obtain ⟨cq1, cq2, cq3, cq4⟩ := gnp_coords p (m.w, m.h) 7 q hg
      have hstep1 : maskAdj m p o := maskAdj_orth m p o 0 (by norm_num) hgo hfo
      have hg2 : get_neighboring_pos o (m.w, m.h) 6 = some q := by
        apply gnp_of_coords o (m.w, m.h) 6 q ?_ ?_ cq3 cq4
        · simp only [rim0x, rim1x, rim2x, rim3x, rim4x, rim5x, rim6x, rim7x] at co1 cq1 ⊢
          omega
        · simp only [rim0y, rim1y, rim2y, rim3y, rim4y, rim5y, rim6y, rim7y] at co2 cq2 ⊢
          omega
      have hstep2 : maskAdj m o q := maskAdj_orth m o q 6 (by norm_num) hg2 hfq
      exact Relation.ReflTransGen.head hstep1 (Relation.ReflTransGen.single hstep2)

/-- Along the loop, a pixel that is claimed or sits in the queue ends up
claimed or still queued; with the final empty queue this means claimed. -/
theorem find_edges_loop_pos (m : Mask) : ∀ fuel : Nat, ∀ s s2 : EState,
    EdgeInv m s → find_edges_loop m fuel s = some s2 → ∀ p : Pos,
    (covered s.emap p ∨ ∃ it ∈ s.queue, it.pos = p) →
    (covered s2.emap p ∨ ∃ it ∈ s2.queue, it.pos = p) := by
  intro fuel
  induction fuel with
  | zero =>
      intro s s2 hi h p hp
      rw [find_edges_loop] at h
      split at h
      · obtain rfl := Option.some.inj h
        exact hp
      · exact absurd h (by simp)
  | succ fuel ih =>
      intro s s2 hi h p hp
      obtain ⟨g, em, queue⟩ := s
      cases hq : queue with
      | nil =>
          subst hq
          obtain rfl := Option.some.inj h
          exact hp
      | cons data rest =>
          subst hq
          obtain ⟨s2b, hstep, hi2, -, -, hcovmono, -, ⟨tail, htail⟩, hcovdata⟩ :=
            find_edges_step_spec m g em data rest hi
          rw [find_edges_loop] at h
          simp only at h
          rw [hstep] at h
          refine ih s2b s2 hi2 h p ?_
          rcases hp with hp | ⟨it, hit, hpos⟩
          · exact Or.inl (hcovmono p hp)
          · rcases List.mem_cons.mp hit with rfl | hit2
            · exact Or.inl (hpos ▸ hcovdata)
            · exact Or.inr ⟨it, by rw [htail]; exact List.mem_append.mpr (Or.inl hit2), hpos⟩

/-- Membership in the scan-order foreground list. -/
theorem mem_fgPixels (m : Mask) (p : Pos) :
    p ∈ fgPixels m ↔ inBnd m p ∧ m.fg p.1 p.2 = true := by
  unfold fgPixels
  rw [List.mem_filter, mem_scanPixels]
  unfold inBnd
  simp [and_assoc]

/-- Invariant of the seeder flood-fill fold: the remaining unvisited list
shrinks, no unvisited pixel is lost (it stays or is queued), the queue
only grows, and every new queue entry is a foreground rim neighbor of the
expanded point. -/
theorem seed_fold_inv (m : Mask) (point : Pos) :
    ∀ L : List Nat, ∀ u q : List Pos,
    (∀ p, p ∈ (L.foldl (seed_step m point) (u, q)).1 → p ∈ u) ∧
    (∀ p, p ∈ u → p ∈ (L.foldl (seed_step m point) (u, q)).1 ∨
      p ∈ (L.foldl (seed_step m point) (u, q)).2) ∧
    (∀ p, p ∈ q → p ∈ (L.foldl (seed_step m point) (u, q)).2) ∧
    (∀ p, p ∈ (L.foldl (seed_step m point) (u, q)).2 → p ∈ q ∨
      (m.fg p.1 p.2 = true ∧
        ∃ i, i ∈ L ∧ get_neighboring_pos point (m.w, m.h) i = some p)) := by
  intro L
  induction L with
  | nil =>
      intro u q
      exact ⟨fun p hp => hp, fun p hp => Or.inl hp, fun p hp => hp,
        fun p hp => Or.inl hp⟩
  | cons i L ih =>
      intro u q
      rw [List.foldl_cons]
      have hstep : ∀ p, (p ∈ (seed_step m point (u, q) i).1 → p ∈ u) ∧
          (p ∈ u → p ∈ (seed_step m point (u, q) i).1 ∨
            p ∈ (seed_step m point (u, q) i).2) ∧
          (p ∈ q → p ∈ (seed_step m point (u, q) i).2) ∧
          (p ∈ (seed_step m point (u, q) i).2 → p ∈ q ∨
            (m.fg p.1 p.2 = true ∧ get_neighboring_pos point (m.w, m.h) i = some p)) := by
        intro p
        unfold seed_step
        split
        · rename_i nb hg
          split
          · rename_i hcond
            rw [Bool.and_eq_true] at hcond
            refine ⟨fun hp => List.mem_of_mem_erase hp, ?_, ?_, ?_⟩
            · intro hp
              by_cases hpn : p = nb
              · subst hpn
                exact Or.inr (List.mem_append.mpr (Or.inr (by simp)))
              · exact Or.inl ((List.mem_erase_of_ne hpn).mpr hp)
            · intro hp
              exact List.mem_append.mpr (Or.inl hp)
            · intro hp
              rcases List.mem_append.mp hp with hp2 | hp2
              · exact Or.inl hp2
              · obtain rfl : p = nb := by simpa using hp2
                exact Or.inr ⟨hcond.1, hg⟩
          · exact ⟨fun hp => hp, fun hp => Or.inl hp, fun hp => hp, fun hp => Or.inl hp⟩
        · exact ⟨fun hp => hp, fun hp => Or.inl hp, fun hp => hp, fun hp => Or.inl hp⟩
      obtain ⟨ih1, ih2, ih3, ih4⟩ :=
        ih (seed_step m point (u, q) i).1 (seed_step m point (u, q) i).2
      refine ⟨?_, ?_, ?_, ?_⟩
      · intro p hp
        exact (hstep p).1 (ih1 p hp)
      · intro p hp
        rcases (hstep p).2.1 hp with hp2 | hp2
        · exact ih2 p hp2
        · exact Or.inr (ih3 p hp2)
      · intro p hp
        exact ih3 p ((hstep p).2.2.1 hp)
      · intro p hp
        rcases ih4 p hp with hp2 | ⟨hf, i2, hi2, hg2⟩
        · rcases (hstep p).2.2.2 hp2 with hp3 | ⟨hf, hg⟩
          · exact Or.inl hp3
          · exact Or.inr ⟨hf, i, List.mem_cons_self _ _, hg⟩
        · exact Or.inr ⟨hf, i2, List.mem_cons_of_mem _ hi2, hg2⟩

/-- The seeder inner flood-fill: every pixel it removes from the unvisited
list is 8-connected to the seed, and it only removes pixels. -/
theorem seed_bfs_conn (m : Mask) (seed : Pos) : ∀ fuel : Nat, ∀ u queue u2 : List Pos,
    seed_bfs m fuel u queue = some u2 →
    (∀ p ∈ queue, m.fg p.1 p.2 = true ∧ inBnd m p ∧ Conn8 m seed p) →
    (∀ p ∈ u, p ∈ u2 ∨ Conn8 m seed p) ∧ (∀ p ∈ u2, p ∈ u) := by
  intro fuel
  induction fuel with
  | zero => intro u queue u2 h; exact absurd h (by simp [seed_bfs])
  | succ fuel ih =>
      intro u queue u2 h hq
      cases queue with
      | nil =>
          rw [seed_bfs] at h
          obtain rfl := Option.some.inj h
          exact ⟨fun p hp => Or.inl hp, fun p hp => hp⟩
      | cons point rest =>
          rw [seed_bfs] at h
          obtain ⟨hfgpt, hinpt, hconnpt⟩ := hq point (List.mem_cons_self _ _)
          obtain ⟨hf1, hf2, hf3, hf4⟩ := seed_fold_inv m point (List.range 8) u rest
          have hq2 : ∀ p ∈ ((List.range 8).foldl (seed_step m point) (u, rest)).2,
              m.fg p.1 p.2 = true ∧ inBnd m p ∧ Conn8 m seed p := by
            intro p hp
            rcases hf4 p hp with hp2 | ⟨hfg, i, hi, hg⟩
            · exact hq p (List.mem_cons_of_mem _ hp2)
            · obtain ⟨-, -, hb1, hb2⟩ := gnp_coords point (m.w, m.h) i p hg
              refine ⟨hfg, ⟨hb1, hb2⟩, ?_⟩
              exact Relation.ReflTransGen.tail hconnpt
                ⟨hinpt, hfgpt, hfg, i, List.mem_range.mp hi, hg⟩
          obtain ⟨ha, hb⟩ := ih _ _ _ h hq2
          refine ⟨?_, ?_⟩
          · intro p hp
            rcases hf2 p hp with hp2 | hp2
            · exact ha p hp2
            · exact Or.inr (hq2 p hp2).2.2
          · intro p hp
            exact hf1 p (hb p hp)

/-- The seeder outer loop: every pixel of the unvisited list ends up
8-connected to one of the returned seed points. -/
theorem fsp_loop_conn (m : Mask) : ∀ fuel : Nat, ∀ u seeds seeds2 : List Pos,
    find_seed_points_loop m fuel u seeds = some seeds2 →
    (∀ p ∈ u, m.fg p.1 p.2 = true ∧ inBnd m p) →
    (∀ s ∈ seeds, s ∈ seeds2) ∧
    (∀ p ∈ u, ∃ s, s ∈ seeds2 ∧ m.fg s.1 s.2 = true ∧ inBnd m s ∧ Conn8 m s p) := by
  intro fuel
  induction fuel with
  | zero =>
      intro u seeds seeds2 h hu
      rw [find_seed_points_loop] at h
      split at h
      · rename_i hemp
        obtain rfl := Option.some.inj h
        rw [List.isEmpty_iff] at hemp
        subst hemp
        exact ⟨fun s hs => hs, fun p hp => absurd hp (by simp)⟩
      · exact absurd h (by simp)
  | succ fuel ih =>
      intro u seeds seeds2 h hu
      cases u with
      | nil =>
          rw [find_seed_points_loop] at h
          obtain rfl := Option.some.inj h
          exact ⟨fun s hs => hs, fun p hp => absurd hp (by simp)⟩
      | cons seed rest =>
          rw [find_seed_points_loop] at h
          obtain ⟨hfgs, hins⟩ := hu seed (List.mem_cons_self _ _)
          cases hbfs : seed_bfs m (8 * rest.length + rest.length + 2) rest [seed] with
          | none => rw [hbfs] at h; exact absurd h (by simp)
          | some u2 =>
              rw [hbfs] at h
              obtain ⟨hrm, hsub⟩ := seed_bfs_conn m seed _ rest [seed] u2 hbfs
                (by
                  intro p hp
                  obtain rfl : p = seed := by simpa using hp
                  exact ⟨hfgs, hins, Relation.ReflTransGen.refl⟩)
              obtain ⟨ihs, ihp⟩ := ih u2 (seeds ++ [seed]) seeds2 h
                (fun p hp => hu p (List.mem_cons_of_mem _ (hsub p hp)))
              have hseedin : seed ∈ seeds2 :=
                ihs seed (List.mem_append.mpr (Or.inr (by simp)))
              refine ⟨fun s hs => ihs s (List.mem_append.mpr (Or.inl hs)), ?_⟩
              intro p hp
              rcases List.mem_cons.mp hp with rfl | hp2
              · exact ⟨p, hseedin, hfgs, hins, Relation.ReflTransGen.refl⟩
              · rcases hrm p hp2 with hp3 | hp3
                · exact ihp p hp3
                · exact ⟨seed, hseedin, hfgs, hins, hp3⟩

/-- Every in-bounds foreground pixel is 8-connected to one of the seed
points returned by `find_seed_points`. -/
theorem find_seed_points_conn (m : Mask) (seeds2 : List Pos)
    (h : find_seed_points m = some seeds2) :
    ∀ p : Pos, inBnd m p → m.fg p.1 p.2 = true →
    ∃ s, s ∈ seeds2 ∧ m.fg s.1 s.2 = true ∧ inBnd m s ∧ Conn8 m s p := by
  intro p hin hfg
  unfold find_seed_points at h
  obtain ⟨-, hcov⟩ := fsp_loop_conn m (fgPixels m).length (fgPixels m) [] seeds2 h
    (fun q hq => ⟨((mem_fgPixels m q).mp hq).2, ((mem_fgPixels m q).mp hq).1⟩)
  exact hcov p ((mem_fgPixels m p).mpr ⟨hin, hfg⟩)

/-- The `find_nodes` expansion fold: every pixel in the produced queue was
already queued or is a foreground rim neighbor of the expanded pixel. -/
theorem nodes_fold_inv (m : Mask) (pt : Pos) :
    ∀ L : List Nat, ∀ q v : List Pos,
    ∀ p, p ∈ (L.foldl (nodes_step m pt) (q, v)).1 → p ∈ q ∨
      (m.fg p.1 p.2 = true ∧
        ∃ i, i ∈ L ∧ get_neighboring_pos pt (m.w, m.h) i = some p) := by
  intro L
  induction L with
  | nil => intro q v p hp; exact Or.inl hp
  | cons i L ih =>
      intro q v p hp
      rw [List.foldl_cons] at hp
      have hstep : ∀ x, x ∈ (nodes_step m pt (q, v) i).1 → x ∈ q ∨
          (m.fg x.1 x.2 = true ∧ get_neighboring_pos pt (m.w, m.h) i = some x) := by
        intro x hx
        unfold nodes_step at hx
        split at hx
        · rename_i nb hg
          split at hx
          · rename_i hcond
            rw [Bool.and_eq_true] at hcond
            rcases List.mem_append.mp hx with hx2 | hx2
            · exact Or.inl hx2
            · obtain rfl : x = nb := by simpa using hx2
              exact Or.inr ⟨hcond.1, hg⟩
          · exact Or.inl hx
        · exact Or.inl hx
      have hrec := ih (nodes_step m pt (q, v) i).1 (nodes_step m pt (q, v) i).2
      have hp2 : p ∈ (L.foldl (nodes_step m pt)
          ((nodes_step m pt (q, v) i).1, (nodes_step m pt (q, v) i).2)).1 := hp
      rcases hrec p hp2 with hp3 | ⟨hf, i2, hi2, hg2⟩
      · rcases hstep p hp3 with hp4 | ⟨hf, hg⟩
        · exact Or.inl hp4
        · exact Or.inr ⟨hf, i, List.mem_cons_self _ _, hg⟩
      · exact Or.inr ⟨hf, i2, List.mem_cons_of_mem _ hi2, hg2⟩

/-- The pixel-relative reachability property carried through `find_nodes`:
in bounds, foreground, and 8-connected to the component seed. -/
def SeedP (m : Mask) (s0 : Pos) (p : Pos) : Prop :=
  inBnd m p ∧ m.fg p.1 p.2 = true ∧ Conn8 m s0 p

/-- Classification accounting for the origin list. -/
theorem classify_origins (m : Mask) (g : TGraph) (origins : List BfsData)
    (count : Nat) (p : Pos) :
    ∃ tl : List BfsData,
      (classify_pixel m g origins count p).2.1 = origins ++ tl ∧
      (classify_pixel m g origins count p).2.2 = count + tl.length ∧
      (∀ o ∈ tl, o.prevPos = o.pos ∧ o.pos = p ∧
        o.rootNode < (classify_pixel m g origins count p).1.nodes.length) ∧
      g.nodes.length ≤ (classify_pixel m g origins count p).1.nodes.length := by
  simp only [classify_pixel, TGraph.add_node]
  split
  · refine ⟨[⟨g.nodes.length, p, p⟩], rfl, by simp, ?_, by simp⟩
    intro o ho
    obtain rfl : o = ⟨g.nodes.length, p, p⟩ := by simpa using ho
    exact ⟨rfl, rfl, by simp⟩
  · split
    · refine ⟨[⟨g.nodes.length, p, p⟩], rfl, by simp, ?_, by simp⟩
      intro o ho
      obtain rfl : o = ⟨g.nodes.length, p, p⟩ := by simpa using ho
      exact ⟨rfl, rfl, by simp⟩
    · exact ⟨[], by simp, by simp, fun o ho => absurd ho (by simp), Nat.le_refl _⟩

/-- Origin accounting for the component BFS: all origins added during the
traversal sit at self-predecessor positions connected to the seed, carry
in-range root ids, the classified count grows by exactly their number, and
the final `recent_point` is seed-connected whenever the queue started
nonempty. -/
theorem node_bfs_origins (m : Mask) (s0 : Pos) :
    ∀ fuel queue visited g origins count recent g2 origins2 count2 recent2,
    node_bfs m fuel queue visited g origins count recent =
      some (g2, origins2, count2, recent2) →
    (∀ p ∈ queue, SeedP m s0 p) →
    (∃ tl, origins2 = origins ++ tl ∧ count2 = count + tl.length ∧
      ∀ o ∈ tl, o.prevPos = o.pos ∧ SeedP m s0 o.pos ∧
        o.rootNode < g2.nodes.length) ∧
    g.nodes.length ≤ g2.nodes.length ∧
    (queue = [] → recent2 = recent) ∧ (queue ≠ [] → SeedP m s0 recent2) := by
  intro fuel
  induction fuel with
  | zero =>
      intro queue visited g origins count recent g2 origins2 count2 recent2 h hq
      rw [node_bfs] at h
      split at h
      · rename_i he
        obtain ⟨rfl, rfl, rfl, rfl⟩ :
            g2 = g ∧ origins2 = origins ∧ count2 = count ∧ recent2 = recent := by
          simpa [Prod.ext_iff] using h.symm
        refine ⟨⟨[], by simp, by simp, by simp⟩, Nat.le_refl _, fun _ => rfl, ?_⟩
        intro hne
        exact absurd (List.isEmpty_iff.mp he) hne
      · exact absurd h (by simp)
  | succ fuel ih =>
      intro queue visited g origins count recent g2 origins2 count2 recent2 h hq
      match queue with
      | [] =>
          rw [node_bfs] at h
          obtain ⟨rfl, rfl, rfl, rfl⟩ :
              g2 = g ∧ origins2 = origins ∧ count2 = count ∧ recent2 = recent := by
            simpa [Prod.ext_iff] using h.symm
          exact ⟨⟨[], by simp, by simp, by simp⟩, Nat.le_refl _,
            fun _ => rfl, fun hne => absurd rfl hne⟩
      | p :: rest =>
          rw [node_bfs] at h
          have hp : SeedP m s0 p := hq p (List.mem_cons_self _ _)
          have hq2 : ∀ x ∈ (expand_seed m p rest visited).1, SeedP m s0 x := by
            intro x hx
            rcases nodes_fold_inv m p (List.range 8) rest visited x hx with
              hx2 | ⟨hf, i, hi, hg⟩
            · exact hq x (List.mem_cons_of_mem _ hx2)
            · obtain ⟨-, -, h3, h4⟩ := gnp_coords p (m.w, m.h) i x hg
              refine ⟨⟨h3, h4⟩, hf, ?_⟩
              exact Relation.ReflTransGen.tail hp.2.2
                ⟨hp.1, hp.2.1, hf, i, by simpa using hi, hg⟩
          obtain ⟨⟨tl1, htl1, hc1, ho1⟩, hlen, hrec0, hrec1⟩ :=
            ih (expand_seed m p rest visited).1 (expand_seed m p rest visited).2
              (classify_pixel m g origins count p).1
              (classify_pixel m g origins count p).2.1
              (classify_pixel m g origins count p).2.2 p
              g2 origins2 count2 recent2 h hq2
          obtain ⟨tl0, htl0, hc0, ho0, hlen0⟩ := classify_origins m g origins count p
          refine ⟨⟨tl0 ++ tl1, ?_, ?_, ?_⟩, Nat.le_trans hlen0 hlen, ?_, ?_⟩
          · rw [htl1, htl0, List.append_assoc]
          · rw [hc1, hc0, List.length_append]; omega
          · intro o ho
            rcases List.mem_append.mp ho with ho2 | ho2
            · obtain ⟨hpr, hpos, hroot⟩ := ho0 o ho2
              exact ⟨hpr, hpos ▸ hp, Nat.lt_of_lt_of_le hroot hlen⟩
            · exact ho1 o ho2
          · intro he; exact absurd he (by simp)
          · intro _
            by_cases hqe : (expand_seed m p rest visited).1 = []
            · rw [hrec0 hqe]; exact hp
            · exact hrec1 hqe

/-- Every successfully processed seed contributes at least one new
self-predecessor frontier origin, in bounds, on foreground, 8-connected to
the seed, with a root id valid in the resulting graph; and node count
never shrinks. -/
theorem process_seed_origins (m : Mask) (acc : TGraph × List BfsData)
    (seed : Pos) (r : TGraph × List BfsData)
    (hseed : inBnd m seed ∧ m.fg seed.1 seed.2 = true)
    (h : process_seed m acc seed = some r) :
    (∃ tl, r.2 = acc.2 ++ tl ∧ tl ≠ [] ∧
      ∀ o ∈ tl, o.prevPos = o.pos ∧ SeedP m seed o.pos ∧
        o.rootNode < r.1.nodes.length) ∧
    acc.1.nodes.length ≤ r.1.nodes.length := by
  unfold process_seed at h
  split at h
  · rename_i g origins count recent hbfs
    have hq : ∀ p ∈ [seed], SeedP m seed p := by
      intro p hp
      obtain rfl : p = seed := by simpa using hp
      exact ⟨hseed.1, hseed.2, Relation.ReflTransGen.refl⟩
    obtain ⟨⟨tl, htl, hc, ho⟩, hlen, -, hrec⟩ :=
      node_bfs_origins m seed (8 * m.w * m.h + 2) [seed] [seed]
        acc.1 acc.2 0 (0, 0) g origins count recent hbfs hq
    split at h
    · rename_i hcnt
      obtain ⟨rfl, rfl⟩ : r.1 = g ∧ r.2 = origins := by
        obtain ⟨r1, r2⟩ := r
        simpa [Prod.ext_iff] using h.symm
      refine ⟨⟨tl, htl, ?_, ho⟩, hlen⟩
      intro he
      rw [he] at hc
      simp at hc
      omega
    · simp only [TGraph.add_node] at h
      obtain ⟨hr1, hr2⟩ : r.1 = ⟨g.nodes ++ [⟨.Waypoint, recent⟩], g.edges⟩ ∧
          r.2 = origins ++ [⟨g.nodes.length, recent, recent⟩] := by
        obtain ⟨r1, r2⟩ := r
        simpa [Prod.ext_iff] using h.symm
      have hrecs : SeedP m seed recent := hrec (by simp)
      refine ⟨⟨tl ++ [⟨g.nodes.length, recent, recent⟩], ?_, by simp, ?_⟩, ?_⟩
      · rw [hr2, htl, List.append_assoc]
      · intro o hoo
        rcases List.mem_append.mp hoo with ho2 | ho2
        · obtain ⟨hpr, hsp, hroot⟩ := ho o ho2
          refine ⟨hpr, hsp, ?_⟩
          rw [hr1]
          simp only [List.length_append, List.length_singleton]
          omega
        · obtain rfl : o = ⟨g.nodes.length, recent, recent⟩ := by simpa using ho2
          refine ⟨rfl, hrecs, ?_⟩
          rw [hr1]
          simp
      · rw [hr1]
        simp only [List.length_append, List.length_singleton]
        omega
  · exact absurd h (by simp)

/-- The `find_nodes` fold over the seed list: the resulting frontier
origins are in-bounds foreground self-predecessor visits with roots valid
in the final graph, and every seed has some origin 8-connected to it. -/
theorem find_nodes_fold (m : Mask) :
    ∀ seeds : List Pos, ∀ acc r : TGraph × List BfsData,
    seeds.foldlM (process_seed m) acc = some r →
    (∀ s ∈ seeds, inBnd m s ∧ m.fg s.1 s.2 = true) →
    (∀ o ∈ acc.2, o.prevPos = o.pos ∧ inBnd m o.pos ∧
      m.fg o.pos.1 o.pos.2 = true ∧ o.rootNode < acc.1.nodes.length) →
    (∀ o ∈ r.2, o.prevPos = o.pos ∧ inBnd m o.pos ∧
      m.fg o.pos.1 o.pos.2 = true ∧ o.rootNode < r.1.nodes.length) ∧
    (∀ s ∈ seeds, ∃ o, o ∈ r.2 ∧ Conn8 m s o.pos) ∧
    acc.1.nodes.length ≤ r.1.nodes.length ∧
    (∀ o ∈ acc.2, o ∈ r.2) := by
  intro seeds
  induction seeds with
  | nil =>
      intro acc r h hs hw
      obtain rfl : acc = r := by simpa using h
      exact ⟨hw, fun s hs2 => absurd hs2 (by simp), Nat.le_refl _, fun o ho => ho⟩
  | cons s seeds ih =>
      intro acc r h hs hw
      rw [List.foldlM_cons] at h
      rcases hps : process_seed m acc s with _ | acc2
      · rw [hps] at h; exact absurd h (by simp)
      rw [hps] at h
      simp only [Option.bind_eq_bind, Option.some_bind] at h
      have hsm : inBnd m s ∧ m.fg s.1 s.2 = true := hs s (List.mem_cons_self _ _)
      obtain ⟨⟨tl, htl, hne, ho⟩, hlen⟩ := process_seed_origins m acc s acc2 hsm hps
      have hw2 : ∀ o ∈ acc2.2, o.prevPos = o.pos ∧ inBnd m o.pos ∧
          m.fg o.pos.1 o.pos.2 = true ∧ o.rootNode < acc2.1.nodes.length := by
        intro o ho2
        rw [htl] at ho2
        rcases List.mem_append.mp ho2 with ho3 | ho3
        · obtain ⟨h1, h2, h3, h4⟩ := hw o ho3
          exact ⟨h1, h2, h3, Nat.lt_of_lt_of_le h4 hlen⟩
        · obtain ⟨h1, ⟨h2, h3, -⟩, h4⟩ := ho o ho3
          exact ⟨h1, h2, h3, h4⟩
      obtain ⟨hwr, hconn, hlen2, hmem⟩ :=
        ih acc2 r h (fun x hx => hs x (List.mem_cons_of_mem _ hx)) hw2
      refine ⟨hwr, ?_, Nat.le_trans hlen hlen2, ?_⟩
      · intro x hx
        rcases List.mem_cons.mp hx with rfl | hx2
        · obtain ⟨o, ho2⟩ := List.exists_mem_of_ne_nil tl hne
          refine ⟨o, hmem o ?_, (ho o ho2).2.1.2.2⟩
          rw [htl]
          exact List.mem_append_right _ ho2
        · exact hconn x hx2
      · intro o ho2
        refine hmem o ?_
        rw [htl]
        exact List.mem_append_left _ ho2

/-- 8-connectivity is symmetric. -/
theorem conn8_symm (m : Mask) (p q : Pos) (h : Conn8 m p q) : Conn8 m q p :=
  Relation.ReflTransGen.symmetric (fun _ _ => adj8_symm m _ _) h

/-- Every 8-connected pair of foreground pixels is also connected along
masked tracer steps: each raw diagonal step is replaced by the two-step
orthogonal detour that the visit mask leaves open. -/
theorem conn8_connM (m : Mask) (p q : Pos) (h : Conn8 m p q) : ConnM m p q := by
  induction h with
  | refl => exact Relation.ReflTransGen.refl
  | tail h1 h2 ih => exact Relation.ReflTransGen.trans ih (adj8_connM m _ _ h2)

/-- At a drained tracer state the covered region is closed under masked
adjacency, hence under masked connectivity. -/
theorem connM_covered (m : Mask) (s : EState) (hi : EdgeInv m s)
    (hq : s.queue = []) (p q : Pos) (hconn : ConnM m p q)
    (hc : covered s.emap p) : covered s.emap q := by
  induction hconn with
  | refl => exact hc
  | tail h1 h2 ih =>
      rcases hi.adj _ _ ih h2 with hcv | ⟨it, hit, -⟩
      · exact hcv
      · rw [hq] at hit
        exact absurd hit (by simp)

/-- Every seed emitted by the outer seed loop is a foreground in-bounds
pixel (it is popped from the unvisited foreground list). -/
theorem fsp_loop_wf (m : Mask) : ∀ fuel : Nat, ∀ u seeds seeds2 : List Pos,
    find_seed_points_loop m fuel u seeds = some seeds2 →
    (∀ p ∈ u, m.fg p.1 p.2 = true ∧ inBnd m p) →
    (∀ s ∈ seeds, m.fg s.1 s.2 = true ∧ inBnd m s) →
    ∀ s ∈ seeds2, m.fg s.1 s.2 = true ∧ inBnd m s := by
  intro fuel
  induction fuel with
  | zero =>
      intro u seeds seeds2 h hu hs
      rw [find_seed_points_loop] at h
      split at h
      · obtain rfl := Option.some.inj h
        exact hs
      · exact absurd h (by simp)
  | succ fuel ih =>
      intro u seeds seeds2 h hu hs
      match u with
      | [] =>
          rw [find_seed_points_loop] at h
          obtain rfl := Option.some.inj h
          exact hs
      | seed :: rest =>
          rw [find_seed_points_loop] at h
          rcases hb : seed_bfs m (8 * rest.length + rest.length + 2) rest [seed]
            with _ | u2
          · rw [hb] at h; exact absurd h (by simp)
          rw [hb] at h
          have hseed := hu seed (List.mem_cons_self _ _)
          have hsub := (seed_bfs_conn m seed _ rest [seed] u2 hb
            (by
              intro p hp
              obtain rfl : p = seed := by simpa using hp
              exact ⟨hseed.1, hseed.2, Relation.ReflTransGen.refl⟩)).2
          refine ih u2 (seeds ++ [seed]) seeds2 h ?_ ?_
          · intro p hp
            exact hu p (List.mem_cons_of_mem _ (hsub p hp))
          · intro s hs2
            rcases List.mem_append.mp hs2 with hs3 | hs3
            · exact hs s hs3
            · obtain rfl : s = seed := by simpa using hs3
              exact hseed

/-- C4: for every skeleton mask, once the pipeline's seed detection and
node classification succeed, `find_edges` succeeds, drains its queue, and
leaves every in-bounds foreground pixel's exploration record in a claimed
(Visited or Merged) state — no foreground pixel remains Unvisited. -/
theorem C4_coverage (m : Mask) (seeds : List Pos) (g0 g : TGraph)
    (origins : List BfsData)
    (hseeds : find_seed_points m = some seeds)
    (hnodes : find_nodes m seeds g0 = some (g, origins)) :
    ∃ s2 : EState, find_edges m g origins = some s2 ∧ s2.queue = [] ∧
      ∀ p : Pos, inBnd m p → m.fg p.1 p.2 = true → covered s2.emap p := by
  have hswf : ∀ s ∈ seeds, inBnd m s ∧ m.fg s.1 s.2 = true := by
    have := fsp_loop_wf m (fgPixels m).length (fgPixels m) [] seeds hseeds
      (fun p hp => ⟨((mem_fgPixels m p).mp hp).2, ((mem_fgPixels m p).mp hp).1⟩)
      (fun s hs => absurd hs (by simp))
    exact fun s hs => ⟨(this s hs).2, (this s hs).1⟩
  obtain ⟨howf, hoconn, -, -⟩ := find_nodes_fold m seeds (g0, []) (g, origins)
    hnodes hswf (fun o ho => absurd ho (by simp))
  have hinv : EdgeInv m ⟨g, initEMap, origins⟩ :=
    edge_inv_init m g origins fun o ho =>
      ⟨(howf o ho).2.1, (howf o ho).1, (howf o ho).2.2.2⟩
  have hphi : phi m ⟨g, initEMap, origins⟩ < 8 * m.w * m.h + origins.length + 1 := by
    have h1 : unvisited_count m initEMap ≤ m.w * m.h := unvisited_count_le m _
    have h8 : 8 * (m.w * m.h) = 8 * m.w * m.h := by ring
    unfold phi
    simp only []
    omega
  obtain ⟨s2, hloop, hinv2, hq2, -, -⟩ :=
    find_edges_loop_ok m (8 * m.w * m.h + origins.length + 1)
      ⟨g, initEMap, origins⟩ hinv hphi
  refine ⟨s2, hloop, hq2, ?_⟩
  intro p hin hfg
  obtain ⟨s, hsmem, hsfg, hsin, hsconn⟩ := find_seed_points_conn m seeds hseeds p hin hfg
  obtain ⟨o, homem, hoc⟩ := hoconn s hsmem
  have hconn : Conn8 m o.pos p :=
    Relation.ReflTransGen.trans (conn8_symm m s o.pos hoc) hsconn
  have hocov : covered s2.emap o.pos := by
    have hstart : covered (⟨g, initEMap, origins⟩ : EState).emap o.pos ∨
        ∃ it ∈ (⟨g, initEMap, origins⟩ : EState).queue, it.pos = o.pos :=
      Or.inr ⟨o, homem, rfl⟩
    rcases find_edges_loop_pos m (8 * m.w * m.h + origins.length + 1)
        ⟨g, initEMap, origins⟩ s2 hinv hloop o.pos hstart with hcv | ⟨it, hit, -⟩
    · exact hcv
    · rw [hq2] at hit
      exact absurd hit (by simp)
  exact connM_covered m s2 hinv2 hq2 o.pos p (conn8_connM m o.pos p hconn) hocov

/-- Witness: on Scenario A the seed detection and node classification
succeed concretely and the coverage theorem applies, so the tracer drains
its queue and claims every foreground pixel. -/
theorem C4_coverage_witness :
    find_seed_points scenarioA = some [(1, 1)] ∧
    find_nodes scenarioA [(1, 1)] ⟨[], []⟩ =
      some (⟨[⟨.Endpoint, (1, 1)⟩, ⟨.Endpoint, (5, 1)⟩], []⟩,
        [⟨0, (1, 1), (1, 1)⟩, ⟨1, (5, 1), (5, 1)⟩]) ∧
    ∃ s2 : EState,
      find_edges scenarioA ⟨[⟨.Endpoint, (1, 1)⟩, ⟨.Endpoint, (5, 1)⟩], []⟩
        [⟨0, (1, 1), (1, 1)⟩, ⟨1, (5, 1), (5, 1)⟩] = some s2 ∧
      s2.queue = [] ∧
      ∀ p : Pos, inBnd scenarioA p → scenarioA.fg p.1 p.2 = true →
        covered s2.emap p :=
  ⟨by rfl, by rfl,
    C4_coverage scenarioA [(1, 1)] ⟨[], []⟩
      ⟨[⟨.Endpoint, (1, 1)⟩, ⟨.Endpoint, (5, 1)⟩], []⟩
      [⟨0, (1, 1), (1, 1)⟩, ⟨1, (5, 1), (5, 1)⟩] (by rfl) (by rfl)⟩
